import Mathlib

/-!
Shallow embedding of `src/colors.py` (cornmunity-wplace): the color/palette
model, the 9x9 tile rasterizer, the screen compositor with separator
splicing, and the grid-builder separator computation.

Machine integers of the source are modelled as `Nat` (all channel values stay
in byte range in the code paths under study).  The third-party perceptual
color-distance routine (colormath delta-E 2000 over Lab conversions) is an
external collaborator per the spec, so it enters the model as an injected
function `delta` on RGB triples; the memoization cache of
`Color.distance_from` stores values that depend only on the RGB triples, so
the cached function is observationally the uncached one and the cache is
elided.  Fallible Python code (IndexError, KeyError, AttributeError,
ValueError, TypeError) is modelled with `Option` / `Except`.
-/

namespace Wplace

/-- RGB triple, the part of a color the distance pipeline reads. -/
abbrev RGB := Nat × Nat × Nat

/-- Immutable RGBA color (`class Color`, src/colors.py lines 18-80).
Python equality and hashing go through `bytes([r, g, b, a])`, i.e. exact
per-channel identity, which is structural equality here. -/
structure Color where
  r : Nat
  g : Nat
  b : Nat
  a : Nat
deriving DecidableEq, Repr

/-- Byte serialization `Color.bytes` (line 36): `bytes([r, g, b, a])`. -/
def Color.bytes (c : Color) : List Nat :=
  [c.r, c.g, c.b, c.a]

/-- Construct a color with the default alpha 255, as `Color(r, g, b)` does. -/
def mkColor (r g b : Nat) : Color :=
  ⟨r, g, b, 255⟩

def black : Color := mkColor 0 0 0

def white : Color := mkColor 255 255 255

/-- Python `//` on these nonnegative byte values is `Nat` division.
`Color.bright` (lines 39-42). -/
def Color.bright (c : Color) : Color :=
  if c.r = 255 ∧ c.g = 255 ∧ c.b = 255 then mkColor 192 192 192
  else mkColor ((c.r + 255) / 2) ((c.g + 255) / 2) ((c.b + 255) / 2)

/-- `Color.dim` (lines 44-47). -/
def Color.dim (c : Color) : Color :=
  if c.r = 0 ∧ c.g = 0 ∧ c.b = 0 then mkColor 64 64 64
  else mkColor (c.r / 2) (c.g / 2) (c.b / 2)

/-- `Color.faded` (lines 49-50): blend toward mid-gray, alpha preserved. -/
def Color.faded (c : Color) : Color :=
  ⟨64 + c.r / 2, 64 + c.g / 2, 64 + c.b / 2, c.a⟩

/-- The method `fade` that `Tile.draw` calls (line 119) does not exist on
`Color` (the class defines `faded`, line 49), so in Python every call raises
`AttributeError`.  We model the attribute access as an always-failing step. -/
def Color.fade (_ : Color) : Except String Color :=
  Except.error "AttributeError: Color object has no attribute fade"

/-- `Color.distance_from` (lines 52-73): both colors are converted to Lab via
their `r`, `g`, `b` channels only (alpha is never read) and handed to the
external delta-E routine, modelled by the injected `delta`.  The memo cache
is elided: every cached value equals `delta` of the RGB triples, so caching
is observationally transparent. -/
def Color.distance_from (delta : RGB → RGB → ℚ) (self other : Color) : ℚ :=
  delta (self.r, self.g, self.b) (other.r, other.g, other.b)

/-- `Color.highlight` (lines 75-80). -/
def Color.highlight (delta : RGB → RGB → ℚ) (c : Color) : Color :=
  if Color.distance_from delta c c.bright > Color.distance_from delta c c.dim then
    c.bright
  else
    c.dim

/-! ### Grid helpers: Python 2D list indexing and assignment -/

/-- Total 2D assignment `g[i][j] = c` used for the literal, provably
in-range indices of the highlight/shadow/halo loops (out of range it is a
no-op; the source only issues these writes at constant indices of a 9x9
grid, where Python assignment succeeds). -/
def set2 {α : Type} (g : List (List α)) (i j : Nat) (c : α) : List (List α) :=
  match g.get? i with
  | none => g
  | some row => g.set i (row.set j c)

/-- Python list index resolution: a negative index wraps once by the length;
anything still out of `[0, n)` is an `IndexError`. -/
def pyIndex (n : Nat) (i : Int) : Option Nat :=
  let j : Int := if i < 0 then i + n else i
  if 0 ≤ j ∧ j < (n : Int) then some j.toNat else none

/-- Python 2D assignment `g[i][j] = c` with full index semantics, used for
the pattern loop whose indices come from arbitrary input patterns. -/
def pySet2 {α : Type} (g : List (List α)) (i j : Int) (c : α) : Option (List (List α)) :=
  match pyIndex g.length i with
  | none => none
  | some ni =>
    match g.get? ni with
    | none => none
    | some row =>
      match pyIndex row.length j with
      | none => none
      | some nj => some (g.set ni (row.set nj c))

/-- Cell read with a default, for stating pointwise grid properties. -/
def cell {α : Type} [Inhabited α] (g : List (List α)) (i j : Nat) : α :=
  (g.getD i []).getD j default

instance : Inhabited Color := ⟨black⟩

/-! ### Tile -/

/-- Immutable tile (`class Tile`, lines 87-127): a grid of colors plus the
display name and paid flag.  In Python, `self.name = name` and
`self.pay = pay` in `__init__` shadow the same-named methods, so `tile.name`
and `tile.pay` read these attributes. -/
structure Tile where
  colors : List (List Color)
  name : Option String
  pay : Bool
deriving DecidableEq, Repr

/-- Highlight border pass of `Tile.__init__` (lines 92-95): for i in 1..8,
`colors[0][i] = highlight; colors[i][8] = highlight`. -/
def hlPass (g : List (List Color)) (h : Color) : List (List Color) :=
  (List.range' 1 8).foldl (fun g i => set2 (set2 g 0 i h) i 8 h) g

/-- Shadow border pass of `Tile.__init__` (lines 96-99): for i in 0..7,
`colors[i][0] = shadow; colors[8][i] = shadow`. -/
def shPass (g : List (List Color)) (s : Color) : List (List Color) :=
  (List.range 8).foldl (fun g i => set2 (set2 g i 0 s) 8 i s) g

/-- Pattern pass of `Tile.__init__` (lines 100-105): center offset
`off = (9 - len(pattern)) // 2` (Python floor division, hence `Int.fdiv`),
then every "X" cell writes the foreground at `colors[off+i][off+j]`,
with Python index semantics. -/
def patPass (g : List (List Color)) (fgc : Color) (pattern : List String) :
    Option (List (List Color)) :=
  let off : Int := Int.fdiv (9 - (pattern.length : Int)) 2
  pattern.enum.foldlM
    (fun g iRow =>
      iRow.2.toList.enum.foldlM
        (fun g jCh =>
          if jCh.2 = 'X' then pySet2 g (off + iRow.1) (off + jCh.1) fgc else pure g)
        g)
    g

/-- Apply an optional pass: the `if highlight is not None` / shadow / halo
guards of the source. -/
def applyOpt (f : List (List Color) → Color → List (List Color))
    (g : List (List Color)) (o : Option Color) : List (List Color) :=
  match o with
  | none => g
  | some c => f g c

/-- Steps 1-3 of `Tile.__init__`: the background fill and the two optional
border passes. -/
def baseGrid (bg : Color) (highlight shadow : Option Color) : List (List Color) :=
  applyOpt shPass
    (applyOpt hlPass (List.replicate 9 (List.replicate 9 bg)) highlight) shadow

/-- The color grid `Tile.__init__` builds (lines 91-106): borders, then the
pattern pass when a pattern and a foreground color are both given
(`if pattern and fg`). -/
def tileGrid (bg : Color) (fg : Option Color) (pattern : List String)
    (highlight shadow : Option Color) : Option (List (List Color)) :=
  match fg with
  | some fgc =>
    if pattern ≠ [] then patPass (baseGrid bg highlight shadow) fgc pattern
    else some (baseGrid bg highlight shadow)
  | none => some (baseGrid bg highlight shadow)

/-- `Tile.__init__` (lines 90-108).  Returns `none` when the pattern loop
raises `IndexError` (possible only for patterns reaching outside the 9x9
grid); the border passes write at constant in-range indices of the
freshly-built 9x9 grid, where Python assignment always succeeds. -/
def Tile.init (bg : Color) (fg : Option Color) (pattern : List String)
    (highlight shadow : Option Color) (name : Option String) (pay : Bool) :
    Option Tile :=
  (tileGrid bg fg pattern highlight shadow).map (fun g => ⟨g, name, pay⟩)

/-- Halo pass of `Tile.draw` (lines 120-126): every perimeter cell is forced
to the halo color. -/
def haloPass (g : List (List Color)) (h : Color) : List (List Color) :=
  (List.range 9).foldl
    (fun g i => set2 (set2 (set2 (set2 g i 0 h) i 8 h) 0 i h) 8 i h) g

/-- Byte rendering of a prepared color grid (line 127):
`[b"".join(c.bytes() for c in line) for line in colors]`. -/
def renderLines (g : List (List Color)) (halo : Option Color) : List (List Nat) :=
  (applyOpt haloPass g halo).map (fun line => (line.map Color.bytes).flatten)

/-- `Tile.draw` (lines 116-127).  The `fade` branch maps every cell through
the nonexistent method `fade` and therefore raises on the first cell. -/
def Tile.draw (t : Tile) (fade : Bool) (halo : Option Color) :
    Except String (List (List Nat)) :=
  if fade then do
    let g ← t.colors.mapM (fun line => line.mapM Color.fade)
    pure (renderLines g halo)
  else
    pure (renderLines t.colors halo)

/-- The fade-free rendering path of `Tile.draw`, the one `Screen.draw`
takes (it calls `tile.draw(halo=halo)` with `fade` defaulted to False). -/
def Tile.drawH (t : Tile) (halo : Option Color) : List (List Nat) :=
  renderLines t.colors halo

/-- `blank_tile = Tile(black)` (line 130); with no pattern the constructor
always succeeds, so we name the constructed value. -/
def blank_tile : Tile :=
  (Tile.init black none [] none none none false).getD ⟨[], none, false⟩

/-! ### Palette table -/

/-- Value of one lowercase hex digit, as `int(c, 16)` computes it. -/
def hexDigitVal (c : Char) : Nat :=
  if c.isDigit then c.toNat - 48
  else if 'a' ≤ c ∧ c ≤ 'f' then c.toNat - 87
  else 0

/-- Python `int(s[i:i+2], 16)` on the 6-character color literals. -/
def hexByte (s : String) (i : Nat) : Nat :=
  16 * hexDigitVal (s.toList.getD i '0') + hexDigitVal (s.toList.getD (i + 1) '0')

/-- The color a table row denotes (lines 350-354): default alpha 255. -/
def colorOfHtml (s : String) : Color :=
  mkColor (hexByte s 0) (hexByte s 2) (hexByte s 4)

/-- Python `s.split(sep)` for a one-character separator (the table patterns
are split on `"/"`): split into the maximal runs between separators, keeping
empty pieces, so the piece count is one more than the separator count. -/
def splitCharsAux (sep : Char) : List Char → List Char → List (List Char)
  | [], acc => [acc.reverse]
  | c :: cs, acc =>
    if c = sep then acc.reverse :: splitCharsAux sep cs []
    else splitCharsAux sep cs (c :: acc)

def pySplit (s : String) (sep : Char) : List String :=
  (splitCharsAux sep s.toList []).map String.mk

def sepSlash : Char := '/'

/-- The literal palette table `color_values` (lines 133-197):
(html color, pattern, display name, paid flag). -/
def color_values : List (String × String × String × Bool) :=
  [ ( "000000", "X...X/.X.X./..X../.X.X./X...X", "Black", false ),
    ( "3c3c3c", "...../XXXXX/.XXX./..X../.....", "Dark Gray", false ),
    ( "787878", "...../XXXXX/...../XXXXX/.....", "Gray", false ),
    ( "aaaaaa", ".XX.X/X.XX./...../.XX.X/X.XX.", "Medium Gray", true ),
    ( "d2d2d2", "...../..X../.X.X./X...X/.....", "Light Gray", false ),
    ( "ffffff", "...../...../..X../...../.....", "White", false ),
    ( "600018", "..X../...../XXXXX/...../..X..", "Deep Red", false ),
    ( "a50e1e", "XXX../X.X../XXXXX/..X.X/..XXX", "Dark Red", true ),
    ( "ed1c24", ".XXX./X...X/X...X/X...X/.XXX.", "Red", false ),
    ( "fa8072", "...../...X./..XX./.XXX./.....", "Light Red", true ),
    ( "e45c1a", "..X../.XXX./XXXXX/.XXX./..X..", "Dark Orange", true ),
    ( "ff7f27", "..X../..X../XX.XX/..X../..X..", "Orange", false ),
    ( "f6aa09", "...../.XXX./.X.X./.XXX./.....", "Gold", false ),
    ( "f9dd3b", "..X../..X../X.X.X/.XXX./..X..", "Yellow", false ),
    ( "fffabc", "..X../.X.X./X...X/.X.X./..X..", "Light Yellow", false ),
    ( "9c8431", ".XXX./X...X/.XXX./X...X/.XXX.", "Dark Goldenrod", true ),
    ( "c5ad31", "..X../.X.X./.X.X./.X.X./..X..", "Goldenrod", true ),
    ( "e8d45f", "...XX/...XX/...../XX.../XX...", "Light Goldenrod", true ),
    ( "4a6b3a", "...../.XXX./.XX../.X.../.....", "Dark Olive", true ),
    ( "5a944a", "X...X/.X.X./..X../..X../..X..", "Olive", true ),
    ( "84c573", "XXXXX/X...X/X...X/X...X/XXXXX", "Light Olive", true ),
    ( "0eb968", "..X../.XXX./X.X.X/..X../..X..", "Dark Green", false ),
    ( "13e67b", ".X.../.XX../.XXX./.XX../.X...", "Green", false ),
    ( "87ff5e", "...../X...X/.X.X./..X../.....", "Light Green", false ),
    ( "0c816e", "....X/...X./..X../.X.../X....", "Dark Teal", false ),
    ( "10aea6", "..X../..X../XXXXX/..X../..X..", "Teal", false ),
    ( "13e1be", "X...X/...X./..X../.X.../X...X", "Light Teal", false ),
    ( "0f799f", "...../.XXX./..XX./...X./.....", "Dark Cyan", true ),
    ( "60f7f2", "...X./..X../.X.../..X../...X.", "Cyan", false ),
    ( "bbfaf2", "X...X/XX.XX/XXXXX/XX.XX/X...X", "Light Cyan", true ),
    ( "28509e", "..X../...X./XXXXX/...X./..X..", "Dark Blue", false ),
    ( "4093e4", "...../..X../.XXX./XXXXX/.....", "Blue", false ),
    ( "7dc7ff", "X...X/...../...../...../X...X", "Light Blue", true ),
    ( "4d31b8", "....X/...X./..X../.X.X./X...X", "Dark Indigo", true ),
    ( "6b50f6", "X..../.X.../..X../...X./....X", "Indigo", false ),
    ( "99b1fb", "..X../..X../..X../..X../..X..", "Light Indigo", false ),
    ( "4a4284", "...../..X../...../..X../.....", "Dark Slate Blue", true ),
    ( "7a71c4", ".X.X./X.X.X/X...X/.X.X./..X..", "Slate Blue", true ),
    ( "b5aef1", ".XXX./X..XX/X.X.X/XX..X/.XXX.", "Light Slate Blue", true ),
    ( "780c99", "..X../..X../..X../...../..X..", "Dark Purple", false ),
    ( "aa38b9", "...X./..XX./.XXX./..XX./...X.", "Purple", false ),
    ( "e09ff9", "...../.XXX./X...X/.XXX./.....", "Light Purple", false ),
    ( "cb007a", "...../...../XXXXX/...../.....", "Dark Pink", false ),
    ( "ec1f80", ".X.X./.X.X./.X.X./.X.X./.X.X.", "Pink", false ),
    ( "f38da9", "...../..X../.XXX./..X../.....", "Light Pink", false ),
    ( "9b5249", ".XXX./XX..X/X.X.X/X..XX/.XXX.", "Dark Peach", true ),
    ( "d18078", ".X.X./XXXXX/XXXXX/.XXX./..X..", "Peach", true ),
    ( "fab6a4", ".X.X./.X.X./.X.X./...../.X.X.", "Light Peach", true ),
    ( "684634", "XX.../XX.../...../...XX/...XX", "Dark Brown", false ),
    ( "95682a", ".XXX./X...X/X.X.X/X...X/.XXX.", "Brown", false ),
    ( "dba463", "...../...../.X.X./...../.....", "Light Brown", true ),
    ( "7b6352", "...../.X.../.XX../.XXX./.....", "Dark Tan", true ),
    ( "9c846b", ".XXX./X...X/..XX./...../..X..", "Tan", true ),
    ( "d6b594", "...../XXXXX/.X.X./.X.X./.....", "Light Tan", true ),
    ( "d18051", "...../..X../.X.X./..X../.....", "Dark Beige", true ),
    ( "f8b277", "..XXX/..X.X/XXXXX/X.X../XXX..", "Beige", false ),
    ( "ffc5a5", "XXXXX/X...X/X.X.X/X...X/XXXXX", "Light Beige", true ),
    ( "6d643f", "XXXXX/.X.X./..X../.X.X./XXXXX", "Dark Stone", true ),
    ( "948c6b", "..X../.X.../XXXXX/.X.../..X..", "Stone", true ),
    ( "cdc59e", ".X.../..X../...X./..X../.X...", "Light Stone", true ),
    ( "333941", "XXXXX/.X.../..X../.X.../XXXXX", "Dark Slate", true ),
    ( "6d758d", "XXXXX/.XXX./..X../.XXX./XXXXX", "Slate", true ),
    ( "b3b9d1", "X...X/...../..X../...../X...X", "Light Slate", true ) ]

/-- The palette colors in declaration order (what `ColorMap.__init__`
collects into `self.colors` and uses as dict keys). -/
def palette_colors : List Color :=
  color_values.map (fun v => colorOfHtml v.1)

/-- A full 5x5 pattern, used to exercise the centering of a smaller-than-9x9
pattern. -/
def pattern5by5 : List String :=
  [ "XXXXX", "XXXXX", "XXXXX", "XXXXX", "XXXXX" ]

def transparentName : String := "Transparent"

def transparentPattern : List String :=
  [ "X.X.X", ".....", "X...X", ".....", "X.X.X" ]

/-- `_make_transparent` (lines 323-342).  The locally-built checkerboard
`lines` is dead code (never used by the returned tile); the function
returns the tile constructed below. -/
def make_transparent : Option Tile :=
  Tile.init (Color.mk 128 128 128 255) (some white) transparentPattern
    (some black) (some white) (some transparentName) false

def default_tile : Tile := ⟨[], none, false⟩

/-- The transparent tile `_make_transparent()` returns (its construction
provably succeeds, see `make_transparent_eq`). -/
def transparent_tile : Tile := make_transparent.getD default_tile

/-! ### ColorMap -/

/-- `class ColorMap` state (lines 345-366): colors in declaration order, the
color-to-tile association in declaration order (an exact model of the
Python dict since the 64 table colors are pairwise distinct), and the
transparent tile. -/
structure ColorMap where
  colors : List Color
  color_map : List (Color × Tile)
  transparent : Tile
deriving DecidableEq, Repr

/-- One iteration of the `ColorMap.__init__` loop (lines 349-365): parse the
table color and build its tile, the foreground being the injected-metric
`highlight` of the color. -/
def colorMapEntry (delta : RGB → RGB → ℚ) (v : String × String × String × Bool) :
    Option (Color × Tile) := do
  let color := colorOfHtml v.1
  let tile ← Tile.init color (some (Color.highlight delta color))
    (pySplit v.2.1 sepSlash) (some color.bright) (some color.dim)
    (some v.2.2.1) v.2.2.2
  pure (color, tile)

/-- `ColorMap.__init__` (lines 346-366), parametrized by the injected
perceptual-distance capability `delta` used by `Color.highlight`. -/
def ColorMap.init (delta : RGB → RGB → ℚ)
    (values : List (String × String × String × Bool)) (transparent : Tile) :
    Option ColorMap := do
  let entries ← values.mapM (colorMapEntry delta)
  pure ⟨entries.map Prod.fst, entries, transparent⟩

/-- `ColorMap.__getitem__` (lines 368-371): alpha-0 short-circuits to the
transparent tile, otherwise an exact dict lookup; a miss is a KeyError. -/
def ColorMap.getitem (cm : ColorMap) (color : Color) : Except String Tile :=
  if color.a = 0 then Except.ok cm.transparent
  else
    match cm.color_map.lookup color with
    | some t => Except.ok t
    | none => Except.error "KeyError"

/-- Python `min(xs, key=f)`: the first element attaining the minimal key
(later elements replace the running best only when strictly smaller); an
empty sequence raises ValueError, hence `Option`. -/
def pymin_by {α β : Type} [LinearOrder β] (f : α → β) : List α → Option α
  | [] => none
  | x :: xs => some (xs.foldl (fun best y => if f y < f best then y else best) x)

/-- `ColorMap.get_closest_color` (lines 373-378). -/
def ColorMap.get_closest_color (delta : RGB → RGB → ℚ) (cm : ColorMap)
    (color : Color) : Option Color :=
  if color.a = 0 then some ⟨0, 0, 0, 0⟩
  else if color ∈ cm.color_map.map Prod.fst then some color
  else pymin_by (fun c => Color.distance_from delta c color) (cm.color_map.map Prod.fst)

/-- The module-level `color_tile_map = ColorMap(color_values, _make_transparent())`
(line 381), parametric in the injected distance capability. -/
def color_tile_map (delta : RGB → RGB → ℚ) : Option ColorMap :=
  make_transparent.bind (fun t => ColorMap.init delta color_values t)

/-! ### Screen and composition -/

/-- `class Screen` state (lines 392-398): cell grid of tiles, the unused
`dim` grid, and the per-cell halo overrides. -/
structure Screen where
  width : Nat
  height : Nat
  tiles : List (List Tile)
  dims : List (List Bool)
  halo : List (List (Option Color))

/-- `Screen.__init__` (lines 393-398). -/
def Screen.init (width height : Nat) : Screen :=
  ⟨width, height,
   List.replicate height (List.replicate width blank_tile),
   List.replicate height (List.replicate width false),
   List.replicate height (List.replicate width none)⟩

/-- `Screen.plot` (lines 400-401); the builder only plots in-range cells. -/
def Screen.plot (s : Screen) (row col : Nat) (tile : Tile) : Screen :=
  ⟨s.width, s.height, set2 s.tiles row col tile, s.dims, s.halo⟩

/-- `Screen.halo` setter (lines 403-404). -/
def Screen.setHalo (s : Screen) (row col : Nat) (color : Color) : Screen :=
  ⟨s.width, s.height, s.tiles, s.dims, set2 s.halo row col (some color)⟩

/-- The per-grid-row accumulation of `Screen.draw` (lines 411-414):
`nextlines` starts as 9 empty pixel rows and each tile's drawn rows are
appended to the corresponding pixel rows; `zip` pairs them, so pixel rows
beyond the drawn rows are left unchanged. -/
def extendRows (nls drawn : List (List Nat)) : List (List Nat) :=
  nls.enum.map (fun p =>
    match drawn.get? p.1 with
    | some d => p.2 ++ d
    | none => p.2)

def rowBlock (line : List Tile) (haloline : List (Option Color)) : List (List Nat) :=
  (line.zip haloline).foldl (fun nls th => extendRows nls (th.1.drawH th.2))
    (List.replicate 9 [])

/-- Python `sorted(xs, reverse=True)` on naturals: stable descending sort
(duplicates are indistinguishable, so any descending sort is the model). -/
def sortDesc (l : List Nat) : List Nat :=
  List.insertionSort (fun a b => b ≤ a) l

/-- Python `l[-n:]`. -/
def lastN {α : Type} (n : Nat) (l : List α) : List α := l.drop (l.length - n)

/-- One column splice of `Screen.draw` (lines 421-423): split the byte row
at offset `hext*4` and insert a copy of the last pixel of the left part and
of the first pixel of the right part:
`line = left + left[-4:] + right[:4] + right`. -/
def spliceCol (line : List Nat) (hext : Nat) : List Nat :=
  let left := line.take (hext * 4)
  let right := line.drop (hext * 4)
  left ++ lastN 4 left ++ right.take 4 ++ right

/-- One row splice of `Screen.draw` (lines 426-428):
`ans = top + top[-1:] + bottom[:1] + bottom`. -/
def spliceRow (ans : List (List Nat)) (vext : Nat) : List (List Nat) :=
  let top := ans.take vext
  let bottom := ans.drop vext
  top ++ lastN 1 top ++ bottom.take 1 ++ bottom

/-- `Screen.draw` (lines 406-429).  The two `assert` statements become the
guard (`none` is the AssertionError); separators are converted to pixel
units and processed in descending order, columns first, then rows. -/
def Screen.draw (s : Screen) (hexts vexts : List Nat) : Option (List (List Nat)) :=
  if (∀ x ∈ hexts, 0 < x ∧ x < s.width) ∧ (∀ y ∈ vexts, 0 < y ∧ y < s.height) then
    let ans := (s.tiles.zip s.halo).foldl (fun ans lh => ans ++ rowBlock lh.1 lh.2) []
    let hx := sortDesc (hexts.map (fun x => x * 9))
    let vx := sortDesc (vexts.map (fun y => y * 9))
    let ans := ans.map (fun line => hx.foldl spliceCol line)
    some (vx.foldl spliceRow ans)
  else none

/-- The dimensions `Screen.write_png` declares to the PNG encoder
(lines 431-438): `width*9 + 2*len(hexts)` by `height*9 + 2*len(vexts)`. -/
def Screen.write_png_dims (s : Screen) (hexts vexts : List Nat) : Nat × Nat :=
  (s.width * 9 + 2 * hexts.length, s.height * 9 + 2 * vexts.length)

/-! ### Nearest mapping of byte rows and the catalog -/

/-- `alpha_line_to_colors` (lines 441-449): consume the flat byte row four
bytes at a time; with `fix` each color is snapped by `get_closest_color`.
A row whose length is not a multiple of 4 raises IndexError (`none`), and
the snap itself is fallible on an empty palette. -/
def alpha_line_to_colors (delta : RGB → RGB → ℚ) (cm : ColorMap) (fix : Bool) :
    List Nat → Option (List Color)
  | [] => some []
  | r :: g :: b :: a :: rest => do
    let c0 := Color.mk r g b a
    let c ← if fix then cm.get_closest_color delta c0 else pure c0
    let others ← alpha_line_to_colors delta cm fix rest
    pure (c :: others)
  | _ => none

/-- Column-separator positions computed by `MakeSubset` (lines 564-568):
`hexts = [4, 4 + x_len]` plus, for `x in range(1, x_len - 1)`, the
positions with `(x + x_start - xstride_off) % xstride == 0`.  Only this
separator-position fragment of `MakeSubset` is modelled; the rest of the
function is PNG decoding, screen population and label stamping. -/
def make_subset_hexts (x_start : Int) (x_len : Nat) (xstride xstride_off : Int) :
    List Int :=
  (List.range' 1 (x_len - 2)).foldl
    (fun hexts (x : Nat) =>
      if ((x : Int) + x_start - xstride_off) % xstride = 0 then
        hexts ++ [(x : Int) + 4]
      else hexts)
    [4, 4 + (x_len : Int)]

/-- Row-separator positions computed by `MakeSubset` (lines 565-571),
symmetric to `make_subset_hexts`. -/
def make_subset_vexts (y_start : Int) (y_len : Nat) (ystride ystride_off : Int) :
    List Int :=
  (List.range' 1 (y_len - 2)).foldl
    (fun vexts (y : Nat) =>
      if ((y : Int) + y_start - ystride_off) % ystride = 0 then
        vexts ++ [(y : Int) + 4]
      else vexts)
    [4, 4 + (y_len : Int)]

def payMark : String := "$ "

def freeMark : String := "  "

/-- The catalog label of a tile (lines 578-581); concatenating a `None`
name would be a TypeError, hence `Option`. -/
def tileLabel (t : Tile) : Option String :=
  t.name.map (fun n => (if t.pay then payMark else freeMark) ++ n)

/-- The dict-based tally of `ColorCatalog` (lines 584-585): first
occurrence inserts a key at the end, later occurrences increment in
place (Python dicts preserve insertion order). -/
def bump (counts : List (String × Nat)) (n : String) : List (String × Nat) :=
  if counts.any (fun p => p.1 = n) then
    counts.map (fun p => if p.1 = n then (p.1, p.2 + 1) else p)
  else counts ++ [(n, 1)]

/-- Code-point lexicographic string comparison, which is Python `<=` on
strings (labels are compared on count ties by `data.sort(reverse=True)`). -/
def charsLe : List Char → List Char → Bool
  | [], _ => true
  | _ :: _, [] => false
  | c :: cs, d :: ds =>
    if c.toNat < d.toNat then true
    else if d.toNat < c.toNat then false
    else charsLe cs ds

/-- Python tuple comparison `a >= b` on (count, label) rows, the order of
the descending sort at line 587: count first, then label. -/
def pairGe (a b : Nat × String) : Prop :=
  b.1 < a.1 ∨ (a.1 = b.1 ∧ charsLe b.2.toList a.2.toList = true)

instance pairGe.dec : DecidableRel pairGe := fun a b => by
  unfold pairGe; infer_instance

/-- `data.sort(reverse=True)` (line 587) on the (count, label) rows: stable
descending sort under the Python tuple order (labels are distinct dict
keys, so the comparison is never a full tie). -/
def sortPairsDesc (l : List (Nat × String)) : List (Nat × String) :=
  List.insertionSort pairGe l

/-- The per-pixel step `name(color_tile_map[color])` of line 582: exact
lookup of the snapped color, then the pay-prefixed label. -/
def catalogLabel (cm : ColorMap) (color : Color) : Option String :=
  match cm.getitem color with
  | Except.ok t => tileLabel t
  | Except.error _ => none

/-- `ColorCatalog` (lines 575-589) up to the final printing: the sorted
(count, label) report rows for a decoded image given as flat byte rows. -/
def ColorCatalog_data (delta : RGB → RGB → ℚ) (cm : ColorMap)
    (pixels : List (List Nat)) : Option (List (Nat × String)) := do
  let color_pixels ← pixels.mapM (alpha_line_to_colors delta cm true)
  let labels ← color_pixels.flatten.mapM (catalogLabel cm)
  let counts := labels.foldl bump []
  let data := counts.map (fun p => (p.2, p.1))
  pure (sortPairsDesc data)

/-- Euclidean squared RGB distance: the cheap metric strategy of the spec,
used as the concrete injected metric in witnesses. -/
def sqdist (t u : RGB) : ℚ :=
  ((t.1 : ℚ) - u.1) ^ 2 + ((t.2.1 : ℚ) - u.2.1) ^ 2 + ((t.2.2 : ℚ) - u.2.2) ^ 2

/-! ### Shape lemmas -/

/-- The `Tile` shape invariant: a 9x9 grid. -/
def grid9 (g : List (List Color)) : Prop :=
  g.map List.length = List.replicate 9 9

instance grid9.dec : DecidablePred grid9 := fun g => by
  unfold grid9; infer_instance

theorem Tile.draw_false_eq_drawH (t : Tile) (halo : Option Color) :
    t.draw false halo = Except.ok (t.drawH halo) := rfl

theorem blank_tile_init :
    Tile.init black none [] none none none false = some blank_tile := rfl

theorem grid9_length {g : List (List Color)} (h : grid9 g) : g.length = 9 := by
  have h2 := congrArg List.length h
  simpa using h2

theorem grid9_row {g : List (List Color)} (h : grid9 g) {row : List Color}
    (hr : row ∈ g) : row.length = 9 := by
  have h2 : row.length ∈ g.map List.length := List.mem_map_of_mem _ hr
  rw [h] at h2
  exact List.eq_of_mem_replicate h2

theorem set_get?_self {α : Type} (l : List α) (i : Nat) (v : α)
    (h : l.get? i = some v) : l.set i v = l := by
  induction l generalizing i with
  | nil => simp at h
  | cons x xs ih =>
    cases i with
    | zero =>
      simp only [List.get?] at h
      injection h with h
      simp [h]
    | succ n =>
      simp only [List.get?] at h
      simp [ih n h]

theorem map_length_set_row {α : Type} (g : List (List α)) (ni : Nat)
    (row row' : List α) (hg : g.get? ni = some row)
    (hlen : row'.length = row.length) :
    (g.set ni row').map List.length = g.map List.length := by
  rw [List.map_set, hlen]
  apply set_get?_self
  rw [List.get?_map, hg]
  rfl

theorem map_length_set2 {α : Type} (g : List (List α)) (i j : Nat) (c : α) :
    (set2 g i j c).map List.length = g.map List.length := by
  unfold set2
  cases hg : g.get? i with
  | none => rfl
  | some row =>
    exact map_length_set_row g i row (row.set j c) hg (List.length_set row j c)

theorem grid9_set2 {g : List (List Color)} (h : grid9 g) (i j : Nat) (c : Color) :
    grid9 (set2 g i j c) := by
  unfold grid9
  rw [map_length_set2]
  exact h

theorem grid9_foldl {β : Type} (f : List (List Color) → β → List (List Color))
    (hf : ∀ g b, grid9 g → grid9 (f g b)) :
    ∀ (L : List β) (g : List (List Color)), grid9 g → grid9 (L.foldl f g)
  | [], _, h => h
  | b :: L, g, h => grid9_foldl f hf L (f g b) (hf g b h)

theorem grid9_replicate (bg : Color) :
    grid9 (List.replicate 9 (List.replicate 9 bg)) := by
  unfold grid9
  simp

theorem grid9_hlPass {g : List (List Color)} (hg : grid9 g) (h : Color) :
    grid9 (hlPass g h) :=
  grid9_foldl _ (fun g i hgg => grid9_set2 (grid9_set2 hgg 0 i h) i 8 h) _ g hg

theorem grid9_shPass {g : List (List Color)} (hg : grid9 g) (s : Color) :
    grid9 (shPass g s) :=
  grid9_foldl _ (fun g i hgg => grid9_set2 (grid9_set2 hgg i 0 s) 8 i s) _ g hg

theorem grid9_haloPass {g : List (List Color)} (hg : grid9 g) (h : Color) :
    grid9 (haloPass g h) :=
  grid9_foldl _
    (fun g i hgg =>
      grid9_set2 (grid9_set2 (grid9_set2 (grid9_set2 hgg i 0 h) i 8 h) 0 i h) 8 i h)
    _ g hg

theorem map_length_pySet2 {α : Type} {g g' : List (List α)} {i j : Int} {c : α}
    (h : pySet2 g i j c = some g') : g'.map List.length = g.map List.length := by
  unfold pySet2 at h
  split at h
  · exact absurd h (by simp)
  · rename_i ni h1
    split at h
    · exact absurd h (by simp)
    · rename_i row h2
      split at h
      · exact absurd h (by simp)
      · rename_i nj h3
        injection h with h
        subst h
        exact map_length_set_row g ni row (row.set nj c) h2 (List.length_set row nj c)

theorem foldlM_option_preserve {β γ : Type} (P : γ → Prop) (f : γ → β → Option γ)
    (hf : ∀ g b g', P g → f g b = some g' → P g') :
    ∀ (L : List β) (g g' : γ), P g → L.foldlM f g = some g' → P g'
  | [], g, g', hP, h => by
    simp only [List.foldlM] at h
    injection h with h
    exact h ▸ hP
  | b :: L, g, g', hP, h => by
    simp only [List.foldlM] at h
    cases h1 : f g b with
    | none => rw [h1] at h; exact absurd h (by simp)
    | some g1 =>
      rw [h1] at h
      exact foldlM_option_preserve P f hf L g1 g' (hf g b g1 hP h1) h

theorem map_length_patPass {g g' : List (List Color)} {fgc : Color}
    {pattern : List String} (h : patPass g fgc pattern = some g') :
    g'.map List.length = g.map List.length := by
  unfold patPass at h
  refine foldlM_option_preserve (fun x => x.map List.length = g.map List.length)
    _ ?_ _ g g' rfl h
  intro g1 iRow g2 hP hstep
  refine Eq.trans ?_ hP
  refine foldlM_option_preserve (fun x => x.map List.length = g1.map List.length)
    _ ?_ _ g1 g2 rfl hstep
  intro g3 jCh g4 hP2 hstep2
  by_cases hX : jCh.2 = 'X'
  · rw [if_pos hX] at hstep2
    rw [map_length_pySet2 hstep2]
    exact hP2
  · rw [if_neg hX] at hstep2
    injection hstep2 with h4
    exact h4 ▸ hP2

theorem grid9_applyOpt (f : List (List Color) → Color → List (List Color))
    (hf : ∀ g c, grid9 g → grid9 (f g c)) {g : List (List Color)} (hg : grid9 g)
    (o : Option Color) : grid9 (applyOpt f g o) := by
  cases o with
  | none => exact hg
  | some c => exact hf g c hg

theorem grid9_baseGrid (bg : Color) (hl sh : Option Color) :
    grid9 (baseGrid bg hl sh) := by
  unfold baseGrid
  exact grid9_applyOpt shPass (fun g s h => grid9_shPass h s)
    (grid9_applyOpt hlPass (fun g x h => grid9_hlPass h x) (grid9_replicate bg) hl) sh

theorem tileGrid_none_eq (bg : Color) (pattern : List String) (hl sh : Option Color) :
    tileGrid bg none pattern hl sh = some (baseGrid bg hl sh) := rfl

theorem tileGrid_some_eq (bg fgc : Color) (pattern : List String) (hl sh : Option Color) :
    tileGrid bg (some fgc) pattern hl sh =
      (if pattern ≠ [] then patPass (baseGrid bg hl sh) fgc pattern
       else some (baseGrid bg hl sh)) := rfl

theorem tileGrid_grid9 {bg : Color} {fg : Option Color} {pattern : List String}
    {hl sh : Option Color} {g : List (List Color)}
    (h : tileGrid bg fg pattern hl sh = some g) : grid9 g := by
  cases fg with
  | none =>
    rw [tileGrid_none_eq] at h
    injection h with h
    exact h ▸ grid9_baseGrid bg hl sh
  | some fgc =>
    rw [tileGrid_some_eq] at h
    by_cases hp : pattern ≠ []
    · rw [if_pos hp] at h
      unfold grid9
      rw [map_length_patPass h]
      exact grid9_baseGrid bg hl sh
    · rw [if_neg hp] at h
      injection h with h
      exact h ▸ grid9_baseGrid bg hl sh

/-- Any tile the constructor produces has a 9x9 color grid: mutation never
changes the grid dimensions, whatever the input pattern. -/
theorem tile_init_grid9 {bg : Color} {fg : Option Color} {pattern : List String}
    {hl sh : Option Color} {name : Option String} {pay : Bool} {t : Tile}
    (h : Tile.init bg fg pattern hl sh name pay = some t) : grid9 t.colors := by
  unfold Tile.init at h
  cases hg : tileGrid bg fg pattern hl sh with
  | none => rw [hg] at h; exact absurd h (by simp)
  | some g =>
    rw [hg] at h
    injection h with h
    rw [← h]
    exact tileGrid_grid9 hg

/-! ### Rendering size lemmas -/

theorem length_flatten_bytes (line : List Color) :
    ((line.map Color.bytes).flatten).length = 4 * line.length := by
  induction line with
  | nil => simp
  | cons c cs ih =>
    simp only [List.map_cons, List.flatten_cons, List.length_append, ih,
      List.length_cons]
    simp only [Color.bytes, List.length_cons, List.length_nil]
    ring

theorem grid9_applyHalo {g : List (List Color)} (hg : grid9 g) (halo : Option Color) :
    grid9 (applyOpt haloPass g halo) :=
  grid9_applyOpt haloPass (fun _ h hh => grid9_haloPass hh h) hg halo

theorem renderLines_length {g : List (List Color)} (hg : grid9 g)
    (halo : Option Color) : (renderLines g halo).length = 9 := by
  unfold renderLines
  rw [List.length_map]
  exact grid9_length (grid9_applyHalo hg halo)

theorem renderLines_rows {g : List (List Color)} (hg : grid9 g) (halo : Option Color) :
    ∀ r ∈ renderLines g halo, r.length = 36 := by
  unfold renderLines
  intro r hr
  obtain ⟨line, hline, rfl⟩ := List.mem_map.mp hr
  rw [length_flatten_bytes]
  have h9 := grid9_row (grid9_applyHalo hg halo) hline
  omega

theorem drawH_length {t : Tile} (hg : grid9 t.colors) (halo : Option Color) :
    (t.drawH halo).length = 9 :=
  renderLines_length hg halo

theorem drawH_rows {t : Tile} (hg : grid9 t.colors) (halo : Option Color) :
    ∀ r ∈ t.drawH halo, r.length = 36 :=
  renderLines_rows hg halo

/-! ### Screen composition size lemmas -/

theorem extendRows_length (nls drawn : List (List Nat)) :
    (extendRows nls drawn).length = nls.length := by
  unfold extendRows
  rw [List.length_map, List.enum_length]

theorem extendRows_rows {nls drawn : List (List Nat)} {L : Nat}
    (hn : ∀ r ∈ nls, r.length = L) (hd9 : drawn.length = nls.length)
    (hd : ∀ r ∈ drawn, r.length = 36) :
    ∀ r ∈ extendRows nls drawn, r.length = L + 36 := by
  unfold extendRows
  intro r hr
  obtain ⟨p, hp, rfl⟩ := List.mem_map.mp hr
  obtain ⟨i, nl⟩ := p
  obtain ⟨hi, hx⟩ := List.mem_enum hp
  have hi' : i < drawn.length := by omega
  have hig : drawn.get? i = some (drawn.get ⟨i, hi'⟩) := List.get?_eq_get hi'
  rw [hig]
  have hd36 : (drawn.get ⟨i, hi'⟩).length = 36 := hd _ (List.get_mem drawn i hi')
  have hnl : nl.length = L := by
    rw [hx]
    exact hn _ (List.getElem_mem hi)
  simp only [List.length_append, hnl, hd36]

theorem rowBlock_fold_sizes :
    ∀ (ps : List (Tile × Option Color)), (∀ p ∈ ps, grid9 p.1.colors) →
    ∀ (nls : List (List Nat)) (L : Nat),
      nls.length = 9 → (∀ r ∈ nls, r.length = L) →
      (ps.foldl (fun nls th => extendRows nls (th.1.drawH th.2)) nls).length = 9 ∧
      ∀ r ∈ ps.foldl (fun nls th => extendRows nls (th.1.drawH th.2)) nls,
        r.length = L + 36 * ps.length
  | [], _, nls, L, h9, hL => by
    refine ⟨h9, ?_⟩
    intro r hr
    simp only [List.foldl_nil] at hr
    simp only [List.length_nil, Nat.mul_zero, Nat.add_zero]
    exact hL r hr
  | p :: ps, hps, nls, L, h9, hL => by
    have hpg : grid9 p.1.colors := hps p (List.mem_cons_self p ps)
    have hstep9 : (extendRows nls (p.1.drawH p.2)).length = 9 := by
      rw [extendRows_length]; exact h9
    have hstepL : ∀ r ∈ extendRows nls (p.1.drawH p.2), r.length = L + 36 :=
      extendRows_rows hL (by rw [drawH_length hpg, h9]) (drawH_rows hpg p.2)
    have ih := rowBlock_fold_sizes ps
      (fun q hq => hps q (List.mem_cons_of_mem p hq))
      (extendRows nls (p.1.drawH p.2)) (L + 36) hstep9 hstepL
    refine ⟨ih.1, ?_⟩
    intro r hr
    have := ih.2 r hr
    simp only [List.length_cons]
    omega

theorem rowBlock_spec (line : List Tile) (haloline : List (Option Color))
    (h : ∀ t ∈ line, grid9 t.colors) :
    (rowBlock line haloline).length = 9 ∧
    ∀ r ∈ rowBlock line haloline, r.length = 36 * (line.zip haloline).length := by
  unfold rowBlock
  have hps : ∀ p ∈ line.zip haloline, grid9 p.1.colors := by
    intro p hp
    exact h p.1 (List.of_mem_zip hp).1
  have := rowBlock_fold_sizes (line.zip haloline) hps (List.replicate 9 []) 0
    (List.length_replicate 9 []) (by intro r hr; rw [List.eq_of_mem_replicate hr]; rfl)
  refine ⟨this.1, ?_⟩
  intro r hr
  have h2 := this.2 r hr
  omega

theorem ans_fold_sizes {w : Nat} :
    ∀ (rows : List (List Tile × List (Option Color))),
      (∀ p ∈ rows, (∀ t ∈ p.1, grid9 t.colors) ∧ (p.1.zip p.2).length = w) →
    ∀ (acc : List (List Nat)), (∀ r ∈ acc, r.length = 36 * w) →
      (rows.foldl (fun ans lh => ans ++ rowBlock lh.1 lh.2) acc).length
        = acc.length + 9 * rows.length ∧
      ∀ r ∈ rows.foldl (fun ans lh => ans ++ rowBlock lh.1 lh.2) acc,
        r.length = 36 * w
  | [], _, acc, hacc => by
    simp only [List.foldl_nil, List.length_nil]
    exact ⟨by omega, hacc⟩
  | p :: rows, hrows, acc, hacc => by
    have hp := hrows p (List.mem_cons_self p rows)
    have hrb := rowBlock_spec p.1 p.2 hp.1
    have hacc' : ∀ r ∈ acc ++ rowBlock p.1 p.2, r.length = 36 * w := by
      intro r hr
      rcases List.mem_append.mp hr with h | h
      · exact hacc r h
      · rw [hrb.2 r h, hp.2]
    have ih := ans_fold_sizes rows (fun q hq => hrows q (List.mem_cons_of_mem p hq))
      (acc ++ rowBlock p.1 p.2) hacc'
    simp only [List.foldl_cons]
    refine ⟨?_, ih.2⟩
    rw [ih.1, List.length_append, hrb.1]
    simp only [List.length_cons]
    omega

theorem length_spliceCol {line : List Nat} {hext : Nat} (h1 : 4 ≤ hext * 4)
    (h2 : hext * 4 + 4 ≤ line.length) :
    (spliceCol line hext).length = line.length + 8 := by
  unfold spliceCol lastN
  simp only [List.length_append, List.length_take, List.length_drop]
  omega

theorem foldl_spliceCol_length {w : Nat} :
    ∀ (hxs : List Nat), (∀ x ∈ hxs, 9 ≤ x ∧ x + 9 ≤ 9 * w) →
    ∀ (line : List Nat), 36 * w ≤ line.length →
      (hxs.foldl spliceCol line).length = line.length + 8 * hxs.length
  | [], _, line, _ => by simp
  | x :: hxs, hx, line, hlen => by
    have h := hx x (List.mem_cons_self x hxs)
    have hstep : (spliceCol line x).length = line.length + 8 :=
      length_spliceCol (by omega) (by omega)
    have ih := foldl_spliceCol_length hxs
      (fun y hy => hx y (List.mem_cons_of_mem x hy)) (spliceCol line x) (by omega)
    simp only [List.foldl_cons, List.length_cons]
    rw [ih, hstep]
    ring

theorem length_spliceRow {ans : List (List Nat)} {vext : Nat} (h1 : 1 ≤ vext)
    (h2 : vext + 1 ≤ ans.length) :
    (spliceRow ans vext).length = ans.length + 2 := by
  unfold spliceRow lastN
  simp only [List.length_append, List.length_take, List.length_drop]
  omega

theorem mem_spliceRow {ans : List (List Nat)} {vext : Nat} {r : List Nat}
    (h : r ∈ spliceRow ans vext) : r ∈ ans := by
  unfold spliceRow lastN at h
  rcases List.mem_append.mp h with h | h
  · rcases List.mem_append.mp h with h | h
    · rcases List.mem_append.mp h with h | h
      · exact List.mem_of_mem_take h
      · exact List.mem_of_mem_take (List.mem_of_mem_drop h)
    · exact List.mem_of_mem_drop (List.mem_of_mem_take h)
  · exact List.mem_of_mem_drop h

theorem foldl_spliceRow_sizes {hh B : Nat} :
    ∀ (vxs : List Nat), (∀ y ∈ vxs, 9 ≤ y ∧ y + 9 ≤ 9 * hh) →
    ∀ (ans : List (List Nat)), 9 * hh ≤ ans.length → (∀ r ∈ ans, r.length = B) →
      (vxs.foldl spliceRow ans).length = ans.length + 2 * vxs.length ∧
      ∀ r ∈ vxs.foldl spliceRow ans, r.length = B
  | [], _, ans, _, hrows => by
    simp only [List.foldl_nil, List.length_nil]
    exact ⟨by omega, hrows⟩
  | y :: vxs, hy, ans, hlen, hrows => by
    have h := hy y (List.mem_cons_self y vxs)
    have hstep : (spliceRow ans y).length = ans.length + 2 :=
      length_spliceRow (by omega) (by omega)
    have hrows' : ∀ r ∈ spliceRow ans y, r.length = B :=
      fun r hr => hrows r (mem_spliceRow hr)
    have ih := foldl_spliceRow_sizes vxs
      (fun z hz => hy z (List.mem_cons_of_mem y hz)) (spliceRow ans y)
      (by omega) hrows'
    simp only [List.foldl_cons, List.length_cons]
    refine ⟨?_, ih.2⟩
    rw [ih.1, hstep]
    ring

theorem mem_sortDesc {l : List Nat} {x : Nat} : x ∈ sortDesc l ↔ x ∈ l :=
  (List.perm_insertionSort _ l).mem_iff

theorem length_sortDesc (l : List Nat) : (sortDesc l).length = l.length :=
  (List.perm_insertionSort _ l).length_eq

instance natGeTotal : IsTotal Nat (fun a b => b ≤ a) :=
  ⟨fun a b => le_total b a⟩

instance natGeTrans : IsTrans Nat (fun a b => b ≤ a) :=
  ⟨fun _ _ _ hab hbc => le_trans hbc hab⟩

theorem sortDesc_sorted (l : List Nat) :
    List.Sorted (fun a b => b ≤ a) (sortDesc l) :=
  List.sorted_insertionSort _ l

/-- Dimension behavior of `Screen.draw`: on a well-formed screen the output
has `height*9 + 2*|vexts|` pixel rows of `(width*9 + 2*|hexts|) * 4` bytes
each — two extra pixel columns per column separator and two extra pixel
rows per row separator, matching the dimensions `write_png` declares. -/
theorem screen_draw_sizes {s : Screen} {hexts vexts : List Nat}
    {out : List (List Nat)}
    (ht_len : s.tiles.length = s.height)
    (ht_row : ∀ row ∈ s.tiles, row.length = s.width)
    (hh_len : s.halo.length = s.height)
    (hh_row : ∀ row ∈ s.halo, row.length = s.width)
    (hg : ∀ row ∈ s.tiles, ∀ t ∈ row, grid9 t.colors)
    (h : s.draw hexts vexts = some out) :
    out.length = s.height * 9 + 2 * vexts.length ∧
    ∀ r ∈ out, r.length = (s.width * 9 + 2 * hexts.length) * 4 := by
  unfold Screen.draw at h
  split at h
  case isFalse => exact absurd h (by simp)
  case isTrue hguard =>
    injection h with h
    have hrows : ∀ p ∈ s.tiles.zip s.halo,
        (∀ t ∈ p.1, grid9 t.colors) ∧ (p.1.zip p.2).length = s.width := by
      intro p hp
      obtain ⟨h1, h2⟩ := List.of_mem_zip hp
      refine ⟨hg p.1 h1, ?_⟩
      rw [List.length_zip, ht_row p.1 h1, hh_row p.2 h2, Nat.min_self]
    have hans := ans_fold_sizes (s.tiles.zip s.halo) hrows [] (by intro r hr; simp at hr)
    have hans_len : ((s.tiles.zip s.halo).foldl
        (fun ans lh => ans ++ rowBlock lh.1 lh.2) []).length = 9 * s.height := by
      rw [hans.1, List.length_zip, ht_len, hh_len, Nat.min_self]
      simp
    have hx_mem : ∀ x ∈ sortDesc (hexts.map (fun x => x * 9)),
        9 ≤ x ∧ x + 9 ≤ 9 * s.width := by
      intro x hx
      obtain ⟨p, hp, rfl⟩ := List.mem_map.mp (mem_sortDesc.mp hx)
      have := hguard.1 p hp
      omega
    have hmap_len : ∀ r ∈ (((s.tiles.zip s.halo).foldl
          (fun ans lh => ans ++ rowBlock lh.1 lh.2) []).map
            (fun line => (sortDesc (hexts.map (fun x => x * 9))).foldl spliceCol line)),
        r.length = (s.width * 9 + 2 * hexts.length) * 4 := by
      intro r hr
      obtain ⟨line, hline, rfl⟩ := List.mem_map.mp hr
      have h36 := hans.2 line hline
      rw [foldl_spliceCol_length _ hx_mem line (by omega), h36,
        length_sortDesc, List.length_map]
      ring
    have hvx_mem : ∀ y ∈ sortDesc (vexts.map (fun y => y * 9)),
        9 ≤ y ∧ y + 9 ≤ 9 * s.height := by
      intro y hy
      obtain ⟨p, hp, rfl⟩ := List.mem_map.mp (mem_sortDesc.mp hy)
      have := hguard.2 p hp
      omega
    have hfin := @foldl_spliceRow_sizes s.height
      ((s.width * 9 + 2 * hexts.length) * 4)
      (sortDesc (vexts.map (fun y => y * 9))) hvx_mem
      (((s.tiles.zip s.halo).foldl (fun ans lh => ans ++ rowBlock lh.1 lh.2) []).map
        (fun line => (sortDesc (hexts.map (fun x => x * 9))).foldl spliceCol line))
      (by rw [List.length_map, hans_len]) hmap_len
    rw [← h]
    refine ⟨?_, hfin.2⟩
    rw [hfin.1, List.length_map, hans_len, length_sortDesc, List.length_map]
    ring

/-- Content of a column splice: at byte offset `hext*4` the spliced row is
the original prefix, a copy of the 4-byte pixel immediately left of the
boundary, a copy of the 4-byte pixel immediately right of the boundary, and
the original suffix. -/
theorem spliceCol_eq {line : List Nat} {hext : Nat} (h1 : 4 ≤ hext * 4)
    (h2 : hext * 4 ≤ line.length) :
    spliceCol line hext =
      line.take (hext * 4) ++ (line.drop (hext * 4 - 4)).take 4 ++
      (line.drop (hext * 4)).take 4 ++ line.drop (hext * 4) := by
  have hlen : (line.take (hext * 4)).length = hext * 4 := by
    rw [List.length_take]; omega
  have hX : lastN 4 (line.take (hext * 4)) = (line.drop (hext * 4 - 4)).take 4 := by
    unfold lastN
    rw [hlen, List.drop_take]
    congr 1
    omega
  unfold spliceCol
  dsimp only
  rw [hX]

/-- Content of a row splice: at pixel-row offset `vext` the spliced buffer
is the original prefix, a copy of the row immediately above the boundary, a
copy of the row immediately below the boundary, and the original suffix. -/
theorem spliceRow_eq {ans : List (List Nat)} {vext : Nat} (h1 : 1 ≤ vext)
    (h2 : vext ≤ ans.length) :
    spliceRow ans vext =
      ans.take vext ++ (ans.drop (vext - 1)).take 1 ++
      (ans.drop vext).take 1 ++ ans.drop vext := by
  have hlen : (ans.take vext).length = vext := by
    rw [List.length_take]; omega
  have hX : lastN 1 (ans.take vext) = (ans.drop (vext - 1)).take 1 := by
    unfold lastN
    rw [hlen, List.drop_take]
    congr 1
    omega
  unfold spliceRow
  dsimp only
  rw [hX]

/-! ### Claim C1 -/

/-- Claim C1 as stated is false at a concrete input: composing a 2x1 screen
of blank tiles with the single strictly interior column separator `[1]`
yields 9 pixel rows of 80 bytes = 20 pixel columns each, not the claimed
`2*9 + 1 = 19` columns (76 bytes): each separator inserts two pixel
columns, not one. -/
theorem claim_C1_counterexample :
    ((Screen.init 2 1).draw [1] []).map (fun out => (out.length, out.map List.length))
        = some (9, List.replicate 9 80) ∧
    (80 : Nat) ≠ (2 * 9 + 1) * 4 := by decide

/-- Claim C1 (amended): composing a well-formed Screen of `w` by `h` cells
with strictly interior column separators `hexts` and row separators `vexts`
yields a buffer of exactly `h*9 + 2*|vexts|` pixel rows of
`(w*9 + 2*|hexts|)*4` bytes — two extra pixel columns per column separator,
matching the dimensions `write_png` declares; each column splice inserts,
at the boundary, an exact duplicate of the pixel column immediately to the
left of the boundary followed by an exact duplicate of the pixel column
immediately to the right (symmetrically for row splices); splice positions
are processed in descending pixel-position order (the position list is
sorted descending, a permutation of the requested positions). -/
theorem claim_C1 :
    (∀ (s : Screen) (hexts vexts : List Nat) (out : List (List Nat)),
        s.tiles.length = s.height →
        (∀ row ∈ s.tiles, row.length = s.width) →
        s.halo.length = s.height →
        (∀ row ∈ s.halo, row.length = s.width) →
        (∀ row ∈ s.tiles, ∀ t ∈ row, grid9 t.colors) →
        s.draw hexts vexts = some out →
        out.length = s.height * 9 + 2 * vexts.length ∧
        (∀ r ∈ out, r.length = (s.width * 9 + 2 * hexts.length) * 4) ∧
        s.write_png_dims hexts vexts
          = (s.width * 9 + 2 * hexts.length, s.height * 9 + 2 * vexts.length)) ∧
    (∀ (line : List Nat) (hext : Nat), 4 ≤ hext * 4 → hext * 4 ≤ line.length →
        spliceCol line hext =
          line.take (hext * 4) ++ (line.drop (hext * 4 - 4)).take 4 ++
          (line.drop (hext * 4)).take 4 ++ line.drop (hext * 4)) ∧
    (∀ (ans : List (List Nat)) (vext : Nat), 1 ≤ vext → vext ≤ ans.length →
        spliceRow ans vext =
          ans.take vext ++ (ans.drop (vext - 1)).take 1 ++
          (ans.drop vext).take 1 ++ ans.drop vext) ∧
    (∀ l : List Nat, List.Sorted (fun a b => b ≤ a) (sortDesc l) ∧
        (sortDesc l).Perm l) := by
  refine ⟨?_, ?_, ?_, ?_⟩
  · intro s hexts vexts out h1 h2 h3 h4 h5 h6
    have hd := screen_draw_sizes h1 h2 h3 h4 h5 h6
    exact ⟨hd.1, hd.2, rfl⟩
  · intro line hext h1 h2
    exact spliceCol_eq h1 h2
  · intro ans vext h1 h2
    exact spliceRow_eq h1 h2
  · intro l
    exact ⟨sortDesc_sorted l, List.perm_insertionSort _ l⟩

theorem claim_C1_witness :
    (∃ out, (Screen.init 2 1).draw [1] [] = some out ∧
        out.length = 1 * 9 + 2 * 0 ∧
        ∀ r ∈ out, r.length = (2 * 9 + 2 * 1) * 4) ∧
    spliceCol [10, 11, 12, 13, 20, 21, 22, 23] 1 =
      [10, 11, 12, 13] ++ [10, 11, 12, 13] ++ [20, 21, 22, 23] ++ [20, 21, 22, 23] ∧
    spliceRow [[1], [2]] 1 = [[1]] ++ [[1]] ++ [[2]] ++ [[2]] ∧
    List.Sorted (fun a b => b ≤ a) (sortDesc [9, 18]) := by
  refine ⟨?_, ?_, ?_, ?_⟩
  · cases hdraw : (Screen.init 2 1).draw [1] [] with
    | none => exact absurd hdraw (by decide)
    | some out =>
      have h := claim_C1.1 (Screen.init 2 1) [1] [] out (by decide) (by decide)
        (by decide) (by decide) (by decide) hdraw
      exact ⟨out, rfl, h.1, h.2.1⟩
  · exact claim_C1.2.1 [10, 11, 12, 13, 20, 21, 22, 23] 1 (by decide) (by decide)
  · exact claim_C1.2.2.1 [[1], [2]] 1 (by decide) (by decide)
  · exact (claim_C1.2.2.2 [9, 18]).1

/-! ### Claim C4 -/

/-- Claim C4: every tile the constructor produces is exactly 9x9 cells, its
fade-free rendering is exactly 9 pixel rows of 36 bytes (9 RGBA pixels),
a 5x5 pattern is centered at offset `(9 - 5) / 2 = 2` (cells 2..6 carry the
foreground), and an empty pattern leaves the plain 9x9 background grid. -/
theorem claim_C4 :
    (∀ (bg : Color) (fg : Option Color) (pattern : List String)
        (hl sh : Option Color) (name : Option String) (pay : Bool) (t : Tile),
        Tile.init bg fg pattern hl sh name pay = some t →
        t.colors.length = 9 ∧ ∀ row ∈ t.colors, row.length = 9) ∧
    (∀ (t : Tile) (halo : Option Color), grid9 t.colors →
        t.draw false halo = Except.ok (t.drawH halo) ∧
        (t.drawH halo).length = 9 ∧ ∀ r ∈ t.drawH halo, r.length = 36) ∧
    ((Tile.init black (some white) pattern5by5 none none none false).isSome = true ∧
      ∀ i < 9, ∀ j < 9,
        (Tile.init black (some white) pattern5by5 none none none false).map
          (fun t => cell t.colors i j)
          = some (if 2 ≤ i ∧ i ≤ 6 ∧ 2 ≤ j ∧ j ≤ 6 then white else black)) ∧
    Tile.init black (some white) [] none none none false
      = some ⟨List.replicate 9 (List.replicate 9 black), none, false⟩ := by
  refine ⟨?_, ?_, by decide, by decide⟩
  · intro bg fg pattern hl sh name pay t h
    have hg := tile_init_grid9 h
    exact ⟨grid9_length hg, fun row hr => grid9_row hg hr⟩
  · intro t halo hg
    exact ⟨Tile.draw_false_eq_drawH t halo, drawH_length hg halo, drawH_rows hg halo⟩

theorem claim_C4_witness :
    (blank_tile.colors.length = 9 ∧ ∀ row ∈ blank_tile.colors, row.length = 9) ∧
    (blank_tile.draw false none = Except.ok (blank_tile.drawH none) ∧
      (blank_tile.drawH none).length = 9 ∧ ∀ r ∈ blank_tile.drawH none, r.length = 36) := by
  constructor
  · exact claim_C4.1 black none [] none none none false blank_tile blank_tile_init
  · exact claim_C4.2.1 blank_tile none (by decide)

/-! ### Claim C5 -/

/-- Claim C5 is right about the intent but the code is wrong: `Tile.draw`
with `fade=True` calls `c.fade()` (line 119) while the class only defines
`faded()` (line 49), so rendering with the fade transform raises
`AttributeError` on the first cell of every (9x9, hence nonempty) tile
instead of producing the faded buffer. -/
theorem claim_C5 :
    (∀ (t : Tile) (halo : Option Color), grid9 t.colors →
        t.draw true halo
          = Except.error "AttributeError: Color object has no attribute fade") ∧
    blank_tile.draw true none
      = Except.error "AttributeError: Color object has no attribute fade" := by
  have key : ∀ (t : Tile) (halo : Option Color), grid9 t.colors →
      t.draw true halo
        = Except.error "AttributeError: Color object has no attribute fade" := by
    intro t halo hg
    have h9 : t.colors.length = 9 := grid9_length hg
    cases ht : t.colors with
    | nil => rw [ht] at h9; exact absurd h9 (by decide)
    | cons r rest =>
      have hr : r.length = 9 := grid9_row hg (ht ▸ List.mem_cons_self r rest)
      cases hrc : r with
      | nil => rw [hrc] at hr; exact absurd hr (by decide)
      | cons c r' =>
        obtain ⟨cs, nm, py⟩ := t
        simp only at ht
        subst ht
        subst hrc
        rfl
  exact ⟨key, key blank_tile none (by decide)⟩

theorem claim_C5_witness :
    blank_tile.draw true none
      = Except.error "AttributeError: Color object has no attribute fade" :=
  claim_C5.1 blank_tile none (by decide)

theorem foldl_append_filter_map {α β : Type} (P : α → Prop) [DecidablePred P]
    (f : α → β) :
    ∀ (L : List α) (init : List β),
      L.foldl (fun acc x => if P x then acc ++ [f x] else acc) init
        = init ++ (L.filter (fun x => decide (P x))).map f
  | [], init => by simp
  | x :: L, init => by
    simp only [List.foldl_cons, List.filter_cons]
    by_cases h : P x
    · rw [if_pos h, foldl_append_filter_map P f L (init ++ [f x])]
      simp [h]
    · rw [if_neg h, foldl_append_filter_map P f L init]
      simp [h]

theorem mem_make_subset_hexts (x_start : Int) (x_len : Nat)
    (xstride xstride_off : Int) (p : Int) :
    p ∈ make_subset_hexts x_start x_len xstride xstride_off ↔
      (p = 4 ∨ p = 4 + (x_len : Int) ∨
        ∃ x : Nat, 1 ≤ x ∧ x ≤ x_len - 2 ∧
          ((x : Int) + x_start - xstride_off) % xstride = 0 ∧ p = (x : Int) + 4) := by
  unfold make_subset_hexts
  rw [foldl_append_filter_map, List.mem_append, List.mem_map]
  constructor
  · rintro (hmem | ⟨x, hx, rfl⟩)
    · rcases List.mem_cons.mp hmem with h | hmem2
      · exact Or.inl h
      · rcases List.mem_cons.mp hmem2 with h | h
        · exact Or.inr (Or.inl h)
        · exact absurd h (List.not_mem_nil _)
    · rw [List.mem_filter] at hx
      obtain ⟨hxr, hxp⟩ := hx
      rw [List.mem_range'_1] at hxr
      exact Or.inr (Or.inr ⟨x, hxr.1, by omega, of_decide_eq_true hxp, rfl⟩)
  · rintro (h | h | ⟨x, hx1, hx2, hmod, rfl⟩)
    · exact Or.inl (by rw [h]; exact List.mem_cons_self _ _)
    · exact Or.inl (by rw [h]; exact List.mem_cons_of_mem _ (List.mem_cons_self _ _))
    · refine Or.inr ⟨x, ?_, rfl⟩
      rw [List.mem_filter, List.mem_range'_1]
      exact ⟨⟨hx1, by omega⟩, decide_eq_true hmod⟩

theorem mem_make_subset_vexts (y_start : Int) (y_len : Nat)
    (ystride ystride_off : Int) (p : Int) :
    p ∈ make_subset_vexts y_start y_len ystride ystride_off ↔
      (p = 4 ∨ p = 4 + (y_len : Int) ∨
        ∃ y : Nat, 1 ≤ y ∧ y ≤ y_len - 2 ∧
          ((y : Int) + y_start - ystride_off) % ystride = 0 ∧ p = (y : Int) + 4) := by
  unfold make_subset_vexts
  rw [foldl_append_filter_map, List.mem_append, List.mem_map]
  constructor
  · rintro (hmem | ⟨y, hy, rfl⟩)
    · rcases List.mem_cons.mp hmem with h | hmem2
      · exact Or.inl h
      · rcases List.mem_cons.mp hmem2 with h | h
        · exact Or.inr (Or.inl h)
        · exact absurd h (List.not_mem_nil _)
    · rw [List.mem_filter] at hy
      obtain ⟨hyr, hyp⟩ := hy
      rw [List.mem_range'_1] at hyr
      exact Or.inr (Or.inr ⟨y, hyr.1, by omega, of_decide_eq_true hyp, rfl⟩)
  · rintro (h | h | ⟨y, hy1, hy2, hmod, rfl⟩)
    · exact Or.inl (by rw [h]; exact List.mem_cons_self _ _)
    · exact Or.inl (by rw [h]; exact List.mem_cons_of_mem _ (List.mem_cons_self _ _))
    · refine Or.inr ⟨y, ?_, rfl⟩
      rw [List.mem_filter, List.mem_range'_1]
      exact ⟨⟨hy1, by omega⟩, decide_eq_true hmod⟩

/-! ### Claim C6 -/

/-- Claim C6: the separator-position lists of `MakeSubset` always contain
the two margin/content boundary positions `4` and `4 + length`, plus
exactly the interior positions `i + 4` for `1 ≤ i ≤ length - 2` with
`(i + start - strideOffset) mod stride == 0`; with
`x_start=0, x_len=10, xstride=5, xstride_off=0` the only interior stride
position is content coordinate `5` (screen position `9 = 5 + 4`), position
`0` being excluded as non-interior. -/
theorem claim_C6 :
    (∀ (x_start : Int) (x_len : Nat) (xstride xstride_off : Int), 0 < xstride →
      ∀ p : Int, p ∈ make_subset_hexts x_start x_len xstride xstride_off ↔
        (p = 4 ∨ p = 4 + (x_len : Int) ∨
          ∃ x : Nat, 1 ≤ x ∧ x ≤ x_len - 2 ∧
            ((x : Int) + x_start - xstride_off) % xstride = 0 ∧ p = (x : Int) + 4)) ∧
    (∀ (y_start : Int) (y_len : Nat) (ystride ystride_off : Int), 0 < ystride →
      ∀ p : Int, p ∈ make_subset_vexts y_start y_len ystride ystride_off ↔
        (p = 4 ∨ p = 4 + (y_len : Int) ∨
          ∃ y : Nat, 1 ≤ y ∧ y ≤ y_len - 2 ∧
            ((y : Int) + y_start - ystride_off) % ystride = 0 ∧ p = (y : Int) + 4)) ∧
    make_subset_hexts 0 10 5 0 = [4, 14, 9] ∧
    make_subset_vexts 0 10 5 0 = [4, 14, 9] := by
  exact ⟨fun a b c d _ p => mem_make_subset_hexts a b c d p,
    fun a b c d _ p => mem_make_subset_vexts a b c d p, by decide, by decide⟩

theorem claim_C6_witness :
    (9 : Int) ∈ make_subset_hexts 0 10 5 0 ∧
    (7 : Int) ∉ make_subset_hexts 0 10 5 0 ∧
    (4 : Int) ∈ make_subset_vexts 0 10 5 0 := by
  refine ⟨?_, ?_, ?_⟩
  · exact (claim_C6.1 0 10 5 0 (by decide) 9).mpr
      (Or.inr (Or.inr ⟨5, by decide, by decide, by decide, by decide⟩))
  · intro hmem
    rcases (claim_C6.1 0 10 5 0 (by decide) 7).mp hmem with h | h | ⟨x, h1, h2, hmod, hx⟩
    · exact absurd h (by decide)
    · exact absurd h (by decide)
    · have hx3 : x = 3 := by omega
      subst hx3
      exact absurd hmod (by decide)
  · exact (claim_C6.2.1 0 10 5 0 (by decide) 4).mpr (Or.inl rfl)

/-! ### Python min: first-minimum characterization -/

theorem pymin_fold_spec {α β : Type} [LinearOrder β] (f : α → β) :
    ∀ (ys : List α) (x : α),
      ∃ l1 l2,
        x :: ys = l1 ++ (ys.foldl (fun best y => if f y < f best then y else best) x) :: l2 ∧
        (∀ z ∈ l1, f (ys.foldl (fun best y => if f y < f best then y else best) x) < f z) ∧
        ∀ z ∈ x :: ys, f (ys.foldl (fun best y => if f y < f best then y else best) x) ≤ f z
  | [], x => by
    refine ⟨[], [], rfl, by simp, ?_⟩
    intro z hz
    rcases List.mem_cons.mp hz with h | h
    · rw [h]; exact le_refl (f x)
    · exact absurd h (List.not_mem_nil z)
  | y :: ys, x => by
    rw [List.foldl_cons]
    by_cases h : f y < f x
    · rw [if_pos h]
      obtain ⟨l1, l2, heq, hstrict, hmin⟩ := pymin_fold_spec f ys y
      refine ⟨x :: l1, l2, by rw [List.cons_append, ← heq], ?_, ?_⟩
      · intro z hz
        rcases List.mem_cons.mp hz with hzx | hzl
        · rw [hzx]
          exact lt_of_le_of_lt (hmin y (List.mem_cons_self y ys)) h
        · exact hstrict z hzl
      · intro z hz
        rcases List.mem_cons.mp hz with hzx | hzl
        · rw [hzx]
          exact le_of_lt (lt_of_le_of_lt (hmin y (List.mem_cons_self y ys)) h)
        · exact hmin z hzl
    · rw [if_neg h]
      have hxy : f x ≤ f y := not_lt.mp h
      obtain ⟨l1, l2, heq, hstrict, hmin⟩ := pymin_fold_spec f ys x
      cases l1 with
      | nil =>
        have hrx : ys.foldl (fun best y => if f y < f best then y else best) x = x := by
          have := congrArg (fun l => l.headD x) heq
          simpa using this.symm
        have hys : ys = l2 := by
          have := congrArg List.tail heq
          simpa using this
        refine ⟨[], y :: ys, ?_, by simp, ?_⟩
        · rw [List.nil_append, hrx]
        · intro z hz
          rcases List.mem_cons.mp hz with hzx | hz2
          · rw [hzx, hrx]
          rcases List.mem_cons.mp hz2 with hzy | hzl
          · rw [hzy, hrx]
            exact hxy
          · exact hmin z (List.mem_cons_of_mem x hzl)
      | cons a l1' =>
        have hax : a = x := by
          have := congrArg (fun l => l.headD x) heq
          simpa using this.symm
        have hys : ys = l1' ++ (ys.foldl (fun best y => if f y < f best then y else best) x) :: l2 := by
          have := congrArg List.tail heq
          simpa using this
        have hrx : f (ys.foldl (fun best y => if f y < f best then y else best) x) < f x := by
          have := hstrict a (List.mem_cons_self a l1')
          rw [hax] at this
          exact this
        refine ⟨x :: y :: l1', l2, ?_, ?_, ?_⟩
        · rw [List.cons_append, List.cons_append, ← hys]
        · intro z hz
          rcases List.mem_cons.mp hz with hzx | hz2
          · rw [hzx]; exact hrx
          rcases List.mem_cons.mp hz2 with hzy | hzl
          · rw [hzy]; exact lt_of_lt_of_le hrx hxy
          · exact hstrict z (List.mem_cons_of_mem a hzl)
        · intro z hz
          rcases List.mem_cons.mp hz with hzx | hz2
          · rw [hzx]; exact le_of_lt hrx
          rcases List.mem_cons.mp hz2 with hzy | hzl
          · rw [hzy]; exact le_of_lt (lt_of_lt_of_le hrx hxy)
          · exact hmin z (List.mem_cons_of_mem x hzl)

/-- What Python `min(l, key=f)` returns: the first element attaining the
minimal key — there is a decomposition `l = l1 ++ r :: l2` where `r` is a
global minimum and every element before it is strictly worse. -/
theorem pymin_by_spec {α β : Type} [LinearOrder β] (f : α → β) (l : List α)
    (r : α) (h : pymin_by f l = some r) :
    ∃ l1 l2, l = l1 ++ r :: l2 ∧ (∀ z ∈ l1, f r < f z) ∧ ∀ z ∈ l, f r ≤ f z := by
  cases l with
  | nil => exact absurd h (by simp [pymin_by])
  | cons x ys =>
    have hr : ys.foldl (fun best y => if f y < f best then y else best) x = r := by
      injection h
    obtain ⟨l1, l2, heq, hstrict, hmin⟩ := pymin_fold_spec f ys x
    rw [hr] at heq hstrict hmin
    exact ⟨l1, l2, heq, hstrict, hmin⟩

theorem pymin_by_mem {α β : Type} [LinearOrder β] {f : α → β} {l : List α}
    {r : α} (h : pymin_by f l = some r) : r ∈ l := by
  obtain ⟨l1, l2, heq, _, _⟩ := pymin_by_spec f l r h
  rw [heq]
  exact List.mem_append_right l1 (List.mem_cons_self r l2)

theorem pymin_by_isSome {α β : Type} [LinearOrder β] (f : α → β) {l : List α}
    (h : l ≠ []) : ∃ r, pymin_by f l = some r := by
  cases l with
  | nil => exact absurd rfl h
  | cons x ys => exact ⟨_, rfl⟩

/-! ### Option monad helpers -/

theorem foldlM_some {β γ : Type} (P : γ → Prop) (f : γ → β → Option γ) :
    ∀ (L : List β) (g : γ), P g →
      (∀ g b, P g → b ∈ L → ∃ g', f g b = some g' ∧ P g') →
      ∃ g', L.foldlM f g = some g' ∧ P g'
  | [], g, hP, _ => ⟨g, rfl, hP⟩
  | b :: L, g, hP, hstep => by
    obtain ⟨g1, hg1, hP1⟩ := hstep g b hP (List.mem_cons_self b L)
    obtain ⟨g', hg', hP'⟩ := foldlM_some P f L g1 hP1
      (fun g2 b2 hP2 hb2 => hstep g2 b2 hP2 (List.mem_cons_of_mem b hb2))
    refine ⟨g', ?_, hP'⟩
    simp only [List.foldlM]
    rw [hg1]
    exact hg'

theorem mapM_some_of_forall {α γ : Type} (f : α → Option γ) (Q : α → γ → Prop) :
    ∀ (L : List α), (∀ a ∈ L, ∃ g, f a = some g ∧ Q a g) →
      ∃ res, L.mapM f = some res ∧ List.Forall₂ Q L res
  | [], _ => ⟨[], rfl, List.Forall₂.nil⟩
  | a :: L, h => by
    obtain ⟨g, hg, hQ⟩ := h a (List.mem_cons_self a L)
    obtain ⟨res, hres, hF⟩ := mapM_some_of_forall f Q L
      (fun b hb => h b (List.mem_cons_of_mem a hb))
    refine ⟨g :: res, ?_, List.Forall₂.cons hQ hF⟩
    rw [List.mapM_cons, hg, hres]
    rfl

theorem forall2_fst_map :
    ∀ {L : List (String × String × String × Bool)} {R : List (Color × Tile)},
      List.Forall₂ (fun v (p : Color × Tile) =>
          p.1 = colorOfHtml v.1 ∧ p.2.name = some v.2.2.1 ∧ p.2.pay = v.2.2.2) L R →
      R.map Prod.fst = L.map (fun v => colorOfHtml v.1) := by
  intro L R h
  induction h with
  | nil => rfl
  | cons h1 _ ih =>
    simp only [List.map_cons]
    rw [h1.1, ih]

theorem mapM_idem {α : Type} (f : α → Option α)
    (hf : ∀ a b, f a = some b → f b = some b) :
    ∀ (l l' : List α), l.mapM f = some l' → l'.mapM f = some l'
  | [], l', h => by
    have : l' = [] := by
      have h0 : (some [] : Option (List α)) = some l' := h
      injection h0 with h0
      exact h0.symm
    rw [this]
    rfl
  | a :: l, l', h => by
    rw [List.mapM_cons] at h
    cases ha : f a with
    | none => rw [ha] at h; exact absurd h (by simp)
    | some b =>
      rw [ha] at h
      cases hl : l.mapM f with
      | none =>
        rw [hl] at h
        exact absurd h (by simp [Bind.bind, Option.bind])
      | some bs =>
        rw [hl] at h
        have hbs : l' = b :: bs := by
          have h0 : (some (b :: bs) : Option (List α)) = some l' := h
          injection h0 with h0
          exact h0.symm
        rw [hbs, List.mapM_cons, hf a b ha, mapM_idem f hf l bs hl]
        rfl

/-! ### Palette and witness-metric facts -/

theorem palette_colors_ne_nil : palette_colors ≠ [] := by decide

theorem palette_colors_alpha : ∀ p ∈ palette_colors, p.a = 255 := by decide

theorem palette_colors_nodup : palette_colors.Nodup := by decide

theorem palette_rgb_nodup :
    (palette_colors.map (fun c => (c.r, c.g, c.b))).Nodup := by decide

theorem sqdist_nonneg (t u : RGB) : 0 ≤ sqdist t u := by
  unfold sqdist
  positivity

theorem sqdist_eq_zero_iff (t u : RGB) : sqdist t u = 0 ↔ t = u := by
  obtain ⟨t1, t2, t3⟩ := t
  obtain ⟨u1, u2, u3⟩ := u
  unfold sqdist
  constructor
  · intro h
    have h1 : ((t1 : ℚ) - u1) ^ 2 = 0 := by
      nlinarith [sq_nonneg ((t1 : ℚ) - u1), sq_nonneg ((t2 : ℚ) - u2),
        sq_nonneg ((t3 : ℚ) - u3)]
    have h2 : ((t2 : ℚ) - u2) ^ 2 = 0 := by
      nlinarith [sq_nonneg ((t1 : ℚ) - u1), sq_nonneg ((t2 : ℚ) - u2),
        sq_nonneg ((t3 : ℚ) - u3)]
    have h3 : ((t3 : ℚ) - u3) ^ 2 = 0 := by
      nlinarith [sq_nonneg ((t1 : ℚ) - u1), sq_nonneg ((t2 : ℚ) - u2),
        sq_nonneg ((t3 : ℚ) - u3)]
    have e1 : (t1 : ℚ) = u1 := by
      have := (pow_eq_zero_iff (by norm_num : (2 : Nat) ≠ 0)).mp h1
      linarith [this]
    have e2 : (t2 : ℚ) = u2 := by
      have := (pow_eq_zero_iff (by norm_num : (2 : Nat) ≠ 0)).mp h2
      linarith [this]
    have e3 : (t3 : ℚ) = u3 := by
      have := (pow_eq_zero_iff (by norm_num : (2 : Nat) ≠ 0)).mp h3
      linarith [this]
    have n1 : t1 = u1 := Nat.cast_injective e1
    have n2 : t2 = u2 := Nat.cast_injective e2
    have n3 : t3 = u3 := Nat.cast_injective e3
    rw [n1, n2, n3]
  · intro h
    injection h with ha hb
    injection hb with hb hc
    rw [ha, hb, hc]
    ring

/-! ### Construction of the palette map succeeds -/

theorem color_values_pattern_ok : ∀ v ∈ color_values,
    (pySplit v.2.1 sepSlash).length ≤ 9 ∧
    ∀ p ∈ (pySplit v.2.1 sepSlash).enum,
      (9 - (pySplit v.2.1 sepSlash).length) / 2 + p.2.length ≤ 9 := by decide

theorem fdiv_off_eq {len : Nat} (h : len ≤ 9) :
    Int.fdiv (9 - (len : Int)) 2 = (((9 - len) / 2 : Nat) : Int) := by
  interval_cases len <;> decide

theorem grid9_getD {g : List (List Color)} (hg : grid9 g) {i : Nat} (hi : i < 9) :
    (g.getD i []).length = 9 := by
  have hlen := grid9_length hg
  have hget : g.get? i = some (g.get ⟨i, by omega⟩) := List.get?_eq_get (by omega)
  have : g.getD i [] = g.get ⟨i, by omega⟩ := by
    show (g.get? i).getD [] = _
    rw [hget]
    rfl
  rw [this]
  exact grid9_row hg (List.get_mem g i (by omega))

theorem pySet2_coe_nat {α : Type} {g : List (List α)} {a b : Nat} (c : α)
    (ha : a < g.length) (hb : b < (g.getD a []).length) :
    pySet2 g (a : Int) (b : Int) c = some (set2 g a b c) := by
  have hpa : pyIndex g.length (a : Int) = some a := by
    unfold pyIndex
    dsimp only
    rw [if_neg (by omega : ¬((a : Int) < 0)), if_pos ⟨by omega, by omega⟩]
    simp
  have hget : g.get? a = some (g.get ⟨a, ha⟩) := List.get?_eq_get ha
  have hrow : g.getD a [] = g.get ⟨a, ha⟩ := by
    show (g.get? a).getD [] = _
    rw [hget]
    rfl
  have hpb : pyIndex (g.get ⟨a, ha⟩).length (b : Int) = some b := by
    unfold pyIndex
    dsimp only
    rw [hrow] at hb
    rw [if_neg (by omega : ¬((b : Int) < 0)), if_pos ⟨by omega, by omega⟩]
    simp
  simp only [pySet2, set2, hpa, hget, hpb]

theorem patPass_some {g : List (List Color)} (hg : grid9 g) (fgc : Color)
    (pattern : List String) (hplen : pattern.length ≤ 9)
    (hrows : ∀ p ∈ pattern.enum, (9 - pattern.length) / 2 + p.2.length ≤ 9) :
    ∃ g', patPass g fgc pattern = some g' ∧ grid9 g' := by
  unfold patPass
  refine foldlM_some grid9 _ pattern.enum g hg ?_
  intro g1 p hP hp
  obtain ⟨i, row⟩ := p
  obtain ⟨hi1, _⟩ := List.mem_enum hp
  have hrowlen := hrows (i, row) hp
  refine foldlM_some grid9 _ row.toList.enum g1 hP ?_
  intro g2 q hP2 hq
  obtain ⟨j, ch⟩ := q
  obtain ⟨hj1, _⟩ := List.mem_enum hq
  by_cases hX : ch = 'X'
  · rw [if_pos hX]
    have hoff : Int.fdiv (9 - (pattern.length : Int)) 2
        = (((9 - pattern.length) / 2 : Nat) : Int) := fdiv_off_eq hplen
    have hlen2 := grid9_length hP2
    have hslen : row.toList.length = row.length := rfl
    have hia : (9 - pattern.length) / 2 + i < 9 := by
      simp only at hrowlen
      omega
    have hjb : (9 - pattern.length) / 2 + j < 9 := by
      simp only at hrowlen
      rw [hslen] at hj1
      omega
    have hcast1 : Int.fdiv (9 - (pattern.length : Int)) 2 + (i : Int)
        = (((9 - pattern.length) / 2 + i : Nat) : Int) := by
      rw [hoff]
      push_cast
      ring
    have hcast2 : Int.fdiv (9 - (pattern.length : Int)) 2 + (j : Int)
        = (((9 - pattern.length) / 2 + j : Nat) : Int) := by
      rw [hoff]
      push_cast
      ring
    rw [hcast1, hcast2]
    refine ⟨set2 g2 ((9 - pattern.length) / 2 + i) ((9 - pattern.length) / 2 + j) fgc,
      pySet2_coe_nat fgc (by omega) ?_, grid9_set2 hP2 _ _ fgc⟩
    rw [grid9_getD hP2 hia]
    exact hjb
  · rw [if_neg hX]
    exact ⟨g2, rfl, hP2⟩

theorem tile_init_some (bg fgc : Color) (pattern : List String)
    (hl sh : Option Color) (name : Option String) (pay : Bool)
    (hplen : pattern.length ≤ 9)
    (hrows : ∀ p ∈ pattern.enum, (9 - pattern.length) / 2 + p.2.length ≤ 9) :
    ∃ t, Tile.init bg (some fgc) pattern hl sh name pay = some t ∧
      t.name = name ∧ t.pay = pay := by
  unfold Tile.init
  rw [tileGrid_some_eq]
  by_cases hp : pattern ≠ []
  · rw [if_pos hp]
    obtain ⟨g', hg', _⟩ :=
      patPass_some (grid9_baseGrid bg hl sh) fgc pattern hplen hrows
    rw [hg']
    exact ⟨⟨g', name, pay⟩, rfl, rfl, rfl⟩
  · rw [if_neg hp]
    exact ⟨⟨baseGrid bg hl sh, name, pay⟩, rfl, rfl, rfl⟩

theorem make_transparent_eq : make_transparent = some transparent_tile := by
  have h := tile_init_some (Color.mk 128 128 128 255) white transparentPattern
    (some black) (some white) (some transparentName) false (by decide) (by decide)
  obtain ⟨t, ht, _, _⟩ := h
  show make_transparent = some (make_transparent.getD default_tile)
  rw [show make_transparent = some t from ht]
  rfl

theorem transparent_tile_name : transparent_tile.name = some transparentName := by
  obtain ⟨t, ht, hn, _⟩ := tile_init_some (Color.mk 128 128 128 255) white
    transparentPattern (some black) (some white) (some transparentName) false
    (by decide) (by decide)
  have : transparent_tile = t := by
    show make_transparent.getD default_tile = t
    rw [show make_transparent = some t from ht]
    rfl
  rw [this, hn]

theorem transparent_tile_pay : transparent_tile.pay = false := by
  obtain ⟨t, ht, _, hp⟩ := tile_init_some (Color.mk 128 128 128 255) white
    transparentPattern (some black) (some white) (some transparentName) false
    (by decide) (by decide)
  have : transparent_tile = t := by
    show make_transparent.getD default_tile = t
    rw [show make_transparent = some t from ht]
    rfl
  rw [this, hp]

/-- The palette map construction succeeds for every injected metric, with
colors and keys in declaration order and each tile carrying its table name
and paid flag. -/
theorem colorMapEntry_some (delta : RGB → RGB → ℚ)
    (v : String × String × String × Bool)
    (hplen : (pySplit v.2.1 sepSlash).length ≤ 9)
    (hrows : ∀ p ∈ (pySplit v.2.1 sepSlash).enum,
      (9 - (pySplit v.2.1 sepSlash).length) / 2 + p.2.length ≤ 9) :
    ∃ pr : Color × Tile, colorMapEntry delta v = some pr ∧
      pr.1 = colorOfHtml v.1 ∧ pr.2.name = some v.2.2.1 ∧ pr.2.pay = v.2.2.2 := by
  obtain ⟨t, ht, hn, hp⟩ := tile_init_some (colorOfHtml v.1)
    (Color.highlight delta (colorOfHtml v.1)) (pySplit v.2.1 sepSlash)
    (some (colorOfHtml v.1).bright) (some (colorOfHtml v.1).dim)
    (some v.2.2.1) v.2.2.2 hplen hrows
  refine ⟨(colorOfHtml v.1, t), ?_, rfl, hn, hp⟩
  unfold colorMapEntry
  dsimp only
  rw [ht]
  rfl

/-- The palette map construction succeeds for every injected metric, with
colors and keys in declaration order and each tile carrying its table name
and paid flag. -/
theorem colorMap_init_some (delta : RGB → RGB → ℚ)
    (values : List (String × String × String × Bool)) (tt : Tile)
    (hok : ∀ v ∈ values, (pySplit v.2.1 sepSlash).length ≤ 9 ∧
      ∀ p ∈ (pySplit v.2.1 sepSlash).enum,
        (9 - (pySplit v.2.1 sepSlash).length) / 2 + p.2.length ≤ 9) :
    ∃ cm, ColorMap.init delta values tt = some cm ∧
      cm.colors = values.map (fun v => colorOfHtml v.1) ∧
      cm.color_map.map Prod.fst = values.map (fun v => colorOfHtml v.1) ∧
      cm.transparent = tt ∧
      List.Forall₂ (fun v (p : Color × Tile) =>
          p.1 = colorOfHtml v.1 ∧ p.2.name = some v.2.2.1 ∧ p.2.pay = v.2.2.2)
        values cm.color_map := by
  obtain ⟨entries, hentries, hF⟩ := mapM_some_of_forall (colorMapEntry delta)
    (fun v (p : Color × Tile) =>
      p.1 = colorOfHtml v.1 ∧ p.2.name = some v.2.2.1 ∧ p.2.pay = v.2.2.2)
    values
    (fun v hv => colorMapEntry_some delta v (hok v hv).1 (hok v hv).2)
  have hmap : entries.map Prod.fst = values.map (fun v => colorOfHtml v.1) :=
    forall2_fst_map hF
  refine ⟨⟨entries.map Prod.fst, entries, tt⟩, ?_, hmap, hmap, rfl, hF⟩
  unfold ColorMap.init
  rw [hentries]
  rfl

theorem color_tile_map_some (delta : RGB → RGB → ℚ) :
    ∃ cm, color_tile_map delta = some cm ∧
      cm.colors = palette_colors ∧
      cm.color_map.map Prod.fst = palette_colors ∧
      cm.transparent = transparent_tile ∧
      List.Forall₂ (fun v (p : Color × Tile) =>
          p.1 = colorOfHtml v.1 ∧ p.2.name = some v.2.2.1 ∧ p.2.pay = v.2.2.2)
        color_values cm.color_map := by
  obtain ⟨cm, hcm, h1, h2, h3, h4⟩ := colorMap_init_some delta color_values
    transparent_tile color_values_pattern_ok
  have hbind : color_tile_map delta
      = ColorMap.init delta color_values transparent_tile := by
    unfold color_tile_map
    rw [make_transparent_eq, Option.some_bind]
  have hpc : palette_colors = color_values.map (fun v => colorOfHtml v.1) := rfl
  refine ⟨cm, ?_, ?_, ?_, h3, h4⟩
  · rw [hbind]
    exact hcm
  · rw [hpc]
    exact h1
  · rw [hpc]
    exact h2

/-! ### Dict lookup lemmas -/

theorem lookup_mem {l : List (Color × Tile)} {c : Color} {t : Tile}
    (h : l.lookup c = some t) : (c, t) ∈ l := by
  induction l with
  | nil => exact absurd h (by simp)
  | cons p l ih =>
    obtain ⟨k, v⟩ := p
    simp only [List.lookup] at h
    cases hbeq : (c == k) with
    | true =>
      rw [hbeq] at h
      dsimp only at h
      injection h with h2
      have hck : c = k := eq_of_beq hbeq
      rw [hck, ← h2]
      exact List.mem_cons_self _ _
    | false =>
      rw [hbeq] at h
      dsimp only at h
      exact List.mem_cons_of_mem _ (ih h)

theorem lookup_some_of_mem_keys {l : List (Color × Tile)} {c : Color}
    (h : c ∈ l.map Prod.fst) : ∃ t, l.lookup c = some t := by
  induction l with
  | nil => exact absurd h (by simp)
  | cons p l ih =>
    obtain ⟨k, v⟩ := p
    rw [List.map_cons, List.mem_cons] at h
    simp only [List.lookup]
    by_cases hc : c = k
    · refine ⟨v, ?_⟩
      rw [show (c == k) = true from beq_iff_eq.mpr hc]
    · have hm : c ∈ l.map Prod.fst := by
        rcases h with h1 | h2
        · exact absurd h1 hc
        · exact h2
      obtain ⟨t, ht⟩ := ih hm
      refine ⟨t, ?_⟩
      rw [show (c == k) = false from beq_eq_false_iff_ne.mpr hc]
      exact ht

theorem lookup_none_of_not_mem_keys {l : List (Color × Tile)} {c : Color}
    (h : c ∉ l.map Prod.fst) : l.lookup c = none := by
  induction l with
  | nil => rfl
  | cons p l ih =>
    obtain ⟨k, v⟩ := p
    rw [List.map_cons, List.mem_cons] at h
    push_neg at h
    simp only [List.lookup]
    rw [show (c == k) = false from beq_eq_false_iff_ne.mpr h.1]
    exact ih h.2

/-! ### Branches of get_closest_color and getitem -/

theorem gcc_alpha0 (delta : RGB → RGB → ℚ) (cm : ColorMap) {c : Color}
    (h : c.a = 0) : cm.get_closest_color delta c = some (Color.mk 0 0 0 0) := by
  unfold ColorMap.get_closest_color
  rw [if_pos h]

theorem gcc_mem (delta : RGB → RGB → ℚ) (cm : ColorMap) {c : Color}
    (h0 : ¬c.a = 0) (hm : c ∈ cm.color_map.map Prod.fst) :
    cm.get_closest_color delta c = some c := by
  unfold ColorMap.get_closest_color
  rw [if_neg h0, if_pos hm]

theorem gcc_notmem (delta : RGB → RGB → ℚ) (cm : ColorMap) {c : Color}
    (h0 : ¬c.a = 0) (hm : c ∉ cm.color_map.map Prod.fst) :
    cm.get_closest_color delta c
      = pymin_by (fun k => Color.distance_from delta k c)
          (cm.color_map.map Prod.fst) := by
  unfold ColorMap.get_closest_color
  rw [if_neg h0, if_neg hm]

theorem getitem_alpha0 (cm : ColorMap) {c : Color} (h : c.a = 0) :
    cm.getitem c = Except.ok cm.transparent := by
  unfold ColorMap.getitem
  rw [if_pos h]

theorem getitem_of_mem (cm : ColorMap) {c : Color} (h0 : ¬c.a = 0)
    (hm : c ∈ cm.color_map.map Prod.fst) :
    ∃ t, cm.getitem c = Except.ok t ∧ (c, t) ∈ cm.color_map := by
  obtain ⟨t, ht⟩ := lookup_some_of_mem_keys hm
  refine ⟨t, ?_, lookup_mem ht⟩
  unfold ColorMap.getitem
  rw [if_neg h0, ht]

theorem getitem_of_not_mem (cm : ColorMap) {c : Color} (h0 : ¬c.a = 0)
    (hm : c ∉ cm.color_map.map Prod.fst) :
    cm.getitem c = Except.error "KeyError" := by
  unfold ColorMap.getitem
  rw [if_neg h0, lookup_none_of_not_mem_keys hm]

/-- The single-color snap is idempotent: whatever `get_closest_color`
returns is a fixed point of `get_closest_color`. -/
theorem gcc_idem (delta : RGB → RGB → ℚ) (cm : ColorMap)
    (hkeys : cm.color_map.map Prod.fst = palette_colors) :
    ∀ c c' : Color, cm.get_closest_color delta c = some c' →
      cm.get_closest_color delta c' = some c' := by
  intro c c' h
  by_cases h0 : c.a = 0
  · rw [gcc_alpha0 delta cm h0] at h
    injection h with h
    rw [← h]
    exact gcc_alpha0 delta cm rfl
  · by_cases hm : c ∈ cm.color_map.map Prod.fst
    · rw [gcc_mem delta cm h0 hm] at h
      injection h with h
      rw [← h]
      exact gcc_mem delta cm h0 hm
    · rw [gcc_notmem delta cm h0 hm] at h
      have hmem : c' ∈ cm.color_map.map Prod.fst := pymin_by_mem h
      have ha : c'.a = 255 := by
        rw [hkeys] at hmem
        exact palette_colors_alpha c' hmem
      exact gcc_mem delta cm (by rw [ha]; exact (by decide : ¬(255 = 0))) hmem

/-- Nearest resolution sends any color whose RGB triple matches a palette
color to that palette color, provided the injected metric is faithful
(nonnegative and zero exactly on equal RGB triples) — the palette RGB
triples are pairwise distinct. -/
theorem gcc_rgb_palette (delta : RGB → RGB → ℚ)
    (hnn : ∀ t u : RGB, 0 ≤ delta t u)
    (hfaith : ∀ t u : RGB, delta t u = 0 ↔ t = u)
    (cm : ColorMap) (hkeys : cm.color_map.map Prod.fst = palette_colors)
    {p c : Color} (hp : p ∈ palette_colors)
    (hrgb : ((p.r, p.g, p.b) : RGB) = (c.r, c.g, c.b)) (h0 : ¬c.a = 0) :
    cm.get_closest_color delta c = some p := by
  by_cases hm : c ∈ cm.color_map.map Prod.fst
  · rw [gcc_mem delta cm h0 hm]
    have hcmem : c ∈ palette_colors := hkeys ▸ hm
    have hcp : c = p :=
      List.inj_on_of_nodup_map palette_rgb_nodup hcmem hp hrgb.symm
    rw [hcp]
  · rw [gcc_notmem delta cm h0 hm, hkeys]
    obtain ⟨r, hr⟩ := pymin_by_isSome
      (fun k => Color.distance_from delta k c) palette_colors_ne_nil
    rw [hr]
    obtain ⟨l1, l2, heq, hstrict, hmin⟩ := pymin_by_spec _ _ _ hr
    have hfp : Color.distance_from delta p c = 0 := by
      unfold Color.distance_from
      rw [show ((p.r, p.g, p.b) : RGB) = (c.r, c.g, c.b) from hrgb]
      exact (hfaith _ _).mpr rfl
    have hrmem : r ∈ palette_colors := pymin_by_mem hr
    have hfr0 : Color.distance_from delta r c = 0 := by
      have hle := hmin p hp
      rw [hfp] at hle
      exact le_antisymm hle (hnn _ _)
    have hrgbr : ((r.r, r.g, r.b) : RGB) = (c.r, c.g, c.b) :=
      (hfaith _ _).mp hfr0
    have hrp : r = p :=
      List.inj_on_of_nodup_map palette_rgb_nodup hrmem hp (hrgbr.trans hrgb.symm)
    rw [hrp]

/-! ### Claim C2 -/

/-- Claim C2: nearest-color resolution returns the reserved transparent
value `Color(0,0,0,0)` for any alpha-0 input regardless of RGB; every exact
palette member (the keys of the constructed map are exactly the palette
colors, in declaration order) is a fixed point; and otherwise the result is
the first palette color minimizing the injected distance under a
left-to-right scan: the palette splits as `l1 ++ r :: l2` with `r` a global
minimum and every color before `r` strictly farther. -/
theorem claim_C2 :
    ∀ delta : RGB → RGB → ℚ,
      (∃ cm, color_tile_map delta = some cm ∧
        cm.color_map.map Prod.fst = palette_colors) ∧
      ∀ cm : ColorMap, cm.color_map.map Prod.fst = palette_colors →
        (∀ c : Color, c.a = 0 →
          cm.get_closest_color delta c = some (Color.mk 0 0 0 0)) ∧
        (∀ c : Color, c ∈ palette_colors →
          cm.get_closest_color delta c = some c) ∧
        (∀ c : Color, ¬c.a = 0 → c ∉ palette_colors →
          ∃ r l1 l2, cm.get_closest_color delta c = some r ∧
            palette_colors = l1 ++ r :: l2 ∧
            (∀ z ∈ palette_colors,
              Color.distance_from delta r c ≤ Color.distance_from delta z c) ∧
            (∀ z ∈ l1,
              Color.distance_from delta r c < Color.distance_from delta z c)) := by
  intro delta
  constructor
  · obtain ⟨cm, h1, _, h2, _⟩ := color_tile_map_some delta
    exact ⟨cm, h1, h2⟩
  intro cm hkeys
  refine ⟨fun c h => gcc_alpha0 delta cm h, ?_, ?_⟩
  · intro c hc
    have ha : c.a = 255 := palette_colors_alpha c hc
    exact gcc_mem delta cm (by rw [ha]; exact (by decide : ¬(255 = 0)))
      (hkeys ▸ hc)
  · intro c h0 hnm
    rw [gcc_notmem delta cm h0 (fun hmm => hnm (hkeys ▸ hmm)), hkeys]
    obtain ⟨r, hr⟩ := pymin_by_isSome
      (fun k => Color.distance_from delta k c) palette_colors_ne_nil
    obtain ⟨l1, l2, heq, hstrict, hmin⟩ := pymin_by_spec _ _ _ hr
    exact ⟨r, l1, l2, hr, heq, hmin, hstrict⟩

theorem claim_C2_witness :
    (∃ cm, color_tile_map sqdist = some cm ∧
      cm.color_map.map Prod.fst = palette_colors) ∧
    (ColorMap.mk palette_colors
        (palette_colors.map (fun c => (c, default_tile)))
        default_tile).get_closest_color sqdist (Color.mk 9 9 9 0)
      = some (Color.mk 0 0 0 0) ∧
    (ColorMap.mk palette_colors
        (palette_colors.map (fun c => (c, default_tile)))
        default_tile).get_closest_color sqdist black = some black ∧
    (∃ r l1 l2,
      (ColorMap.mk palette_colors
          (palette_colors.map (fun c => (c, default_tile)))
          default_tile).get_closest_color sqdist (Color.mk 1 1 1 255) = some r ∧
      palette_colors = l1 ++ r :: l2 ∧
      (∀ z ∈ palette_colors,
        Color.distance_from sqdist r (Color.mk 1 1 1 255)
          ≤ Color.distance_from sqdist z (Color.mk 1 1 1 255)) ∧
      (∀ z ∈ l1,
        Color.distance_from sqdist r (Color.mk 1 1 1 255)
          < Color.distance_from sqdist z (Color.mk 1 1 1 255))) := by
  have hkeys : (ColorMap.mk palette_colors
      (palette_colors.map (fun c => (c, default_tile)))
      default_tile).color_map.map Prod.fst = palette_colors := by
    rw [List.map_map,
      show (Prod.fst ∘ fun c : Color => (c, default_tile)) = id from rfl,
      List.map_id]
  refine ⟨(claim_C2 sqdist).1, ?_, ?_, ?_⟩
  · exact ((claim_C2 sqdist).2 _ hkeys).1 (Color.mk 9 9 9 0) rfl
  · exact ((claim_C2 sqdist).2 _ hkeys).2.1 black (by decide)
  · exact ((claim_C2 sqdist).2 _ hkeys).2.2 (Color.mk 1 1 1 255)
      (by decide) (by decide)

/-! ### Claim C7 -/

/-- Claim C7: per-pixel nearest resolution is idempotent — every output of
`get_closest_color` is a fixed point — and hence mapping an entire image
(a 2D grid of colors) through nearest resolution twice equals mapping it
once. -/
theorem claim_C7 :
    ∀ delta : RGB → RGB → ℚ,
      (∃ cm, color_tile_map delta = some cm ∧
        cm.color_map.map Prod.fst = palette_colors) ∧
      ∀ cm : ColorMap, cm.color_map.map Prod.fst = palette_colors →
        (∀ c c' : Color, cm.get_closest_color delta c = some c' →
          cm.get_closest_color delta c' = some c') ∧
        ∀ img img' : List (List Color),
          img.mapM (fun row => row.mapM (cm.get_closest_color delta)) = some img' →
          img'.mapM (fun row => row.mapM (cm.get_closest_color delta)) = some img' := by
  intro delta
  constructor
  · obtain ⟨cm, h1, _, h2, _⟩ := color_tile_map_some delta
    exact ⟨cm, h1, h2⟩
  intro cm hkeys
  refine ⟨gcc_idem delta cm hkeys, ?_⟩
  exact mapM_idem (fun row => row.mapM (cm.get_closest_color delta))
    (fun row row' h => mapM_idem (cm.get_closest_color delta)
      (gcc_idem delta cm hkeys) row row' h)

theorem claim_C7_witness :
    (∃ cm, color_tile_map sqdist = some cm ∧
      cm.color_map.map Prod.fst = palette_colors) ∧
    (ColorMap.mk palette_colors
        (palette_colors.map (fun c => (c, default_tile)))
        default_tile).get_closest_color sqdist (Color.mk 0 0 0 0)
      = some (Color.mk 0 0 0 0) ∧
    ([[]] : List (List Color)).mapM
        (fun row => row.mapM ((ColorMap.mk palette_colors
          (palette_colors.map (fun c => (c, default_tile)))
          default_tile).get_closest_color sqdist)) = some [[]] := by
  have hkeys : (ColorMap.mk palette_colors
      (palette_colors.map (fun c => (c, default_tile)))
      default_tile).color_map.map Prod.fst = palette_colors := by
    rw [List.map_map,
      show (Prod.fst ∘ fun c : Color => (c, default_tile)) = id from rfl,
      List.map_id]
  refine ⟨(claim_C7 sqdist).1, ?_, ?_⟩
  · exact ((claim_C7 sqdist).2 _ hkeys).1 (Color.mk 7 7 7 0) (Color.mk 0 0 0 0) rfl
  · exact ((claim_C7 sqdist).2 _ hkeys).2 [[]] [[]] rfl

/-! ### Claim C8 -/

/-- Claim C8: exact palette lookup returns the fixed transparent entry for
any alpha-0 color without error; for nonzero alpha it returns the tile
associated with the exact byte match of the color, and it raises KeyError
exactly when the color is not an exact palette member. -/
theorem claim_C8 :
    ∀ delta : RGB → RGB → ℚ,
      ∃ cm, color_tile_map delta = some cm ∧
        cm.color_map.map Prod.fst = palette_colors ∧
        cm.transparent = transparent_tile ∧
        (∀ c : Color, c.a = 0 → cm.getitem c = Except.ok cm.transparent) ∧
        (∀ c : Color, ¬c.a = 0 → c ∈ palette_colors →
          ∃ t, cm.getitem c = Except.ok t ∧ (c, t) ∈ cm.color_map) ∧
        (∀ c : Color, ¬c.a = 0 →
          (cm.getitem c = Except.error "KeyError" ↔ c ∉ palette_colors)) := by
  intro delta
  obtain ⟨cm, h1, _, hkeys, htr, _⟩ := color_tile_map_some delta
  refine ⟨cm, h1, hkeys, htr, fun c h => getitem_alpha0 cm h, ?_, ?_⟩
  · intro c h0 hc
    exact getitem_of_mem cm h0 (hkeys ▸ hc)
  · intro c h0
    constructor
    · intro herr hc
      obtain ⟨t, ht, _⟩ := getitem_of_mem cm h0 (hkeys ▸ hc)
      rw [ht] at herr
      exact absurd herr (by simp)
    · intro hc
      exact getitem_of_not_mem cm h0 (fun hmm => hc (hkeys ▸ hmm))

theorem claim_C8_witness :
    ∃ cm, color_tile_map sqdist = some cm ∧
      cm.getitem (Color.mk 7 8 9 0) = Except.ok cm.transparent ∧
      (∃ t, cm.getitem black = Except.ok t ∧ (black, t) ∈ cm.color_map) ∧
      cm.getitem (Color.mk 1 2 3 255) = Except.error "KeyError" := by
  obtain ⟨cm, h1, _, _, h4, h5, h6⟩ := claim_C8 sqdist
  exact ⟨cm, h1, h4 (Color.mk 7 8 9 0) rfl,
    h5 black (by decide) (by decide),
    (h6 (Color.mk 1 2 3 255) (by decide)).mpr (by decide)⟩

/-! ### Claim C10 -/

/-- Claim C10: the distance pipeline reads only the RGB channels — colors
agreeing on RGB have equal distances whatever their alphas — and
consequently, for any faithful injected metric (nonnegative, zero exactly
on equal RGB triples, true of both the perceptual delta-E and the Euclidean
strategy), nearest-color resolution of nonzero-alpha colors depends only on
the RGB channels. -/
theorem claim_C10 :
    (∀ (delta : RGB → RGB → ℚ) (a a' b b' : Color),
      a.r = a'.r → a.g = a'.g → a.b = a'.b →
      b.r = b'.r → b.g = b'.g → b.b = b'.b →
      Color.distance_from delta a b = Color.distance_from delta a' b') ∧
    (∀ delta : RGB → RGB → ℚ,
      (∀ t u : RGB, 0 ≤ delta t u) →
      (∀ t u : RGB, delta t u = 0 ↔ t = u) →
      ∀ cm : ColorMap, cm.color_map.map Prod.fst = palette_colors →
      ∀ c c' : Color, ¬c.a = 0 → ¬c'.a = 0 →
        c.r = c'.r → c.g = c'.g → c.b = c'.b →
        cm.get_closest_color delta c = cm.get_closest_color delta c') := by
  constructor
  · intro delta a a' b b' h1 h2 h3 h4 h5 h6
    unfold Color.distance_from
    rw [h1, h2, h3, h4, h5, h6]
  · intro delta hnn hfaith cm hkeys c c' h0 h0' hr hg hb
    by_cases hex : ∃ p ∈ palette_colors, ((p.r, p.g, p.b) : RGB) = (c.r, c.g, c.b)
    · obtain ⟨p, hp, hrgb⟩ := hex
      rw [gcc_rgb_palette delta hnn hfaith cm hkeys hp hrgb h0,
        gcc_rgb_palette delta hnn hfaith cm hkeys hp
          (by rw [hrgb, hr, hg, hb]) h0']
    · push_neg at hex
      have hm : c ∉ cm.color_map.map Prod.fst := by
        intro hmm
        exact hex c (hkeys ▸ hmm) rfl
      have hm' : c' ∉ cm.color_map.map Prod.fst := by
        intro hmm
        exact hex c' (hkeys ▸ hmm) (by rw [hr, hg, hb])
      rw [gcc_notmem delta cm h0 hm, gcc_notmem delta cm h0' hm']
      have hfeq : (fun k => Color.distance_from delta k c)
          = (fun k => Color.distance_from delta k c') := by
        funext k
        unfold Color.distance_from
        rw [hr, hg, hb]
      rw [hfeq]

/-! ### Pointwise cell lemmas for the border and pattern passes -/

theorem cell_set2_ne {α : Type} [Inhabited α] {g : List (List α)} {i j a b : Nat}
    {c : α} (h : i ≠ a ∨ j ≠ b) : cell (set2 g i j c) a b = cell g a b := by
  unfold set2
  cases hg : g.get? i with
  | none => rfl
  | some row =>
    unfold cell
    rcases h with h | h
    · have : (g.set i (row.set j c)).getD a [] = g.getD a [] := by
        show ((g.set i (row.set j c)).get? a).getD [] = (g.get? a).getD []
        rw [List.get?_set_ne _ _ h]
      rw [this]
    · by_cases hia : i = a
      · subst hia
        have hlen : i < g.length := by
          by_contra hcon
          rw [List.get?_eq_none.mpr (by omega)] at hg
          exact absurd hg (by simp)
        have h1 : (g.set i (row.set j c)).getD i [] = row.set j c := by
          show ((g.set i (row.set j c)).get? i).getD [] = _
          rw [List.get?_set_eq_of_lt _ (by omega)]
          rfl
        have h2 : g.getD i [] = row := by
          show (g.get? i).getD [] = _
          rw [hg]
          rfl
        rw [h1, h2]
        show ((row.set j c).get? b).getD default = (row.get? b).getD default
        rw [List.get?_set_ne _ _ h]
      · have : (g.set i (row.set j c)).getD a [] = g.getD a [] := by
          show ((g.set i (row.set j c)).get? a).getD [] = (g.get? a).getD []
          rw [List.get?_set_ne _ _ hia]
        rw [this]

theorem cell_set2_self {α : Type} [Inhabited α] {g : List (List α)} {i j : Nat}
    (hi : i < g.length) (hj : j < (g.getD i []).length) (c : α) :
    cell (set2 g i j c) i j = c := by
  have hget : g.get? i = some (g.get ⟨i, hi⟩) := List.get?_eq_get hi
  have hrow : g.getD i [] = g.get ⟨i, hi⟩ := by
    show (g.get? i).getD [] = _
    rw [hget]
    rfl
  unfold set2
  rw [hget]
  unfold cell
  have h1 : (g.set i ((g.get ⟨i, hi⟩).set j c)).getD i [] = (g.get ⟨i, hi⟩).set j c := by
    show ((g.set i ((g.get ⟨i, hi⟩).set j c)).get? i).getD [] = _
    rw [List.get?_set_eq_of_lt _ (by omega)]
    rfl
  rw [h1]
  show (((g.get ⟨i, hi⟩).set j c).get? j).getD default = c
  rw [hrow] at hj
  rw [List.get?_set_eq_of_lt _ (by omega)]
  rfl

theorem get?_replicate_lt {α : Type} (x : α) :
    ∀ (n i : Nat), i < n → (List.replicate n x).get? i = some x
  | 0, _, h => absurd h (by omega)
  | _ + 1, 0, _ => rfl
  | n + 1, i + 1, h => get?_replicate_lt x n i (by omega)

theorem cell_replicate (bg : Color) {a b : Nat} (ha : a < 9) (hb : b < 9) :
    cell (List.replicate 9 (List.replicate 9 bg)) a b = bg := by
  unfold cell
  have h1 : (List.replicate 9 (List.replicate 9 bg)).getD a [] = List.replicate 9 bg := by
    show ((List.replicate 9 (List.replicate 9 bg)).get? a).getD [] = _
    rw [get?_replicate_lt _ 9 a ha]
    rfl
  rw [h1]
  show ((List.replicate 9 bg).get? b).getD default = bg
  rw [get?_replicate_lt _ 9 b hb]
  rfl

theorem cell_hl_step {g : List (List Color)} (hg : grid9 g) {i : Nat} (hi : i < 9)
    (h : Color) {a b : Nat} (ha : a < 9) (hb : b < 9) :
    cell (set2 (set2 g 0 i h) i 8 h) a b
      = if (a = 0 ∧ b = i) ∨ (a = i ∧ b = 8) then h else cell g a b := by
  have hg1 : grid9 (set2 g 0 i h) := grid9_set2 hg 0 i h
  by_cases h1 : a = i ∧ b = 8
  · obtain ⟨rfl, rfl⟩ := h1
    rw [if_pos (Or.inr ⟨rfl, rfl⟩)]
    exact cell_set2_self (by rw [grid9_length hg1]; omega)
      (by rw [grid9_getD hg1 hi]; omega) h
  · rw [cell_set2_ne (by tauto)]
    by_cases h2 : a = 0 ∧ b = i
    · obtain ⟨rfl, rfl⟩ := h2
      rw [if_pos (Or.inl ⟨rfl, rfl⟩)]
      exact cell_set2_self (by rw [grid9_length hg]; omega)
        (by rw [grid9_getD hg (by omega)]; omega) h
    · rw [if_neg (by tauto), cell_set2_ne (by tauto)]

theorem cell_sh_step {g : List (List Color)} (hg : grid9 g) {i : Nat} (hi : i < 9)
    (s : Color) {a b : Nat} (ha : a < 9) (hb : b < 9) :
    cell (set2 (set2 g i 0 s) 8 i s) a b
      = if (a = i ∧ b = 0) ∨ (a = 8 ∧ b = i) then s else cell g a b := by
  have hg1 : grid9 (set2 g i 0 s) := grid9_set2 hg i 0 s
  by_cases h1 : a = 8 ∧ b = i
  · obtain ⟨rfl, rfl⟩ := h1
    rw [if_pos (Or.inr ⟨rfl, rfl⟩)]
    exact cell_set2_self (by rw [grid9_length hg1]; omega)
      (by rw [grid9_getD hg1 (by omega)]; omega) s
  · rw [cell_set2_ne (by tauto)]
    by_cases h2 : a = i ∧ b = 0
    · obtain ⟨rfl, rfl⟩ := h2
      rw [if_pos (Or.inl ⟨rfl, rfl⟩)]
      exact cell_set2_self (by rw [grid9_length hg]; omega)
        (by rw [grid9_getD hg hi]; omega) s
    · rw [if_neg (by tauto), cell_set2_ne (by tauto)]

theorem cell_hl_fold (h : Color) :
    ∀ (L : List Nat), (∀ i ∈ L, i < 9) →
    ∀ (g : List (List Color)), grid9 g → ∀ {a b : Nat}, a < 9 → b < 9 →
      cell (L.foldl (fun g i => set2 (set2 g 0 i h) i 8 h) g) a b
        = if (a = 0 ∧ b ∈ L) ∨ (b = 8 ∧ a ∈ L) then h else cell g a b
  | [], _, g, hg, a, b, ha, hb => by
    simp only [List.foldl_nil]
    rw [if_neg (by simp)]
  | i :: L, hL, g, hg, a, b, ha, hb => by
    have hi : i < 9 := hL i (List.mem_cons_self i L)
    have hg' : grid9 (set2 (set2 g 0 i h) i 8 h) :=
      grid9_set2 (grid9_set2 hg 0 i h) i 8 h
    rw [List.foldl_cons,
      cell_hl_fold h L (fun x hx => hL x (List.mem_cons_of_mem i hx)) _ hg' ha hb,
      cell_hl_step hg hi h ha hb]
    by_cases hT : (a = 0 ∧ b ∈ L) ∨ (b = 8 ∧ a ∈ L)
    · rw [if_pos hT, if_pos ?_]
      rcases hT with ⟨h1, h2⟩ | ⟨h1, h2⟩
      · exact Or.inl ⟨h1, List.mem_cons_of_mem i h2⟩
      · exact Or.inr ⟨h1, List.mem_cons_of_mem i h2⟩
    · rw [if_neg hT]
      by_cases hH : (a = 0 ∧ b = i) ∨ (a = i ∧ b = 8)
      · rw [if_pos hH, if_pos ?_]
        rcases hH with ⟨h1, h2⟩ | ⟨h1, h2⟩
        · exact Or.inl ⟨h1, h2 ▸ List.mem_cons_self i L⟩
        · exact Or.inr ⟨h2, h1 ▸ List.mem_cons_self i L⟩
      · rw [if_neg hH, if_neg ?_]
        intro hcon
        rcases hcon with ⟨h1, h2⟩ | ⟨h1, h2⟩
        · rcases List.mem_cons.mp h2 with h3 | h3
          · exact hH (Or.inl ⟨h1, h3⟩)
          · exact hT (Or.inl ⟨h1, h3⟩)
        · rcases List.mem_cons.mp h2 with h3 | h3
          · exact hH (Or.inr ⟨h3, h1⟩)
          · exact hT (Or.inr ⟨h1, h3⟩)

theorem cell_sh_fold (s : Color) :
    ∀ (L : List Nat), (∀ i ∈ L, i < 9) →
    ∀ (g : List (List Color)), grid9 g → ∀ {a b : Nat}, a < 9 → b < 9 →
      cell (L.foldl (fun g i => set2 (set2 g i 0 s) 8 i s) g) a b
        = if (a ∈ L ∧ b = 0) ∨ (a = 8 ∧ b ∈ L) then s else cell g a b
  | [], _, g, hg, a, b, ha, hb => by
    simp only [List.foldl_nil]
    rw [if_neg (by simp)]
  | i :: L, hL, g, hg, a, b, ha, hb => by
    have hi : i < 9 := hL i (List.mem_cons_self i L)
    have hg' : grid9 (set2 (set2 g i 0 s) 8 i s) :=
      grid9_set2 (grid9_set2 hg i 0 s) 8 i s
    rw [List.foldl_cons,
      cell_sh_fold s L (fun x hx => hL x (List.mem_cons_of_mem i hx)) _ hg' ha hb,
      cell_sh_step hg hi s ha hb]
    by_cases hT : (a ∈ L ∧ b = 0) ∨ (a = 8 ∧ b ∈ L)
    · rw [if_pos hT, if_pos ?_]
      rcases hT with ⟨h1, h2⟩ | ⟨h1, h2⟩
      · exact Or.inl ⟨List.mem_cons_of_mem i h1, h2⟩
      · exact Or.inr ⟨h1, List.mem_cons_of_mem i h2⟩
    · rw [if_neg hT]
      by_cases hH : (a = i ∧ b = 0) ∨ (a = 8 ∧ b = i)
      · rw [if_pos hH, if_pos ?_]
        rcases hH with ⟨h1, h2⟩ | ⟨h1, h2⟩
        · exact Or.inl ⟨h1 ▸ List.mem_cons_self i L, h2⟩
        · exact Or.inr ⟨h1, h2 ▸ List.mem_cons_self i L⟩
      · rw [if_neg hH, if_neg ?_]
        intro hcon
        rcases hcon with ⟨h1, h2⟩ | ⟨h1, h2⟩
        · rcases List.mem_cons.mp h1 with h3 | h3
          · exact hH (Or.inl ⟨h3, h2⟩)
          · exact hT (Or.inl ⟨h3, h2⟩)
        · rcases List.mem_cons.mp h2 with h3 | h3
          · exact hH (Or.inr ⟨h1, h3⟩)
          · exact hT (Or.inr ⟨h1, h3⟩)

/-- Pointwise content of the bordered background grid: shadow owns the left
column (rows 0-7) and bottom row (columns 0-7), highlight owns the top row
(columns 1-8) and right column (rows 1-8); in particular the top-left
corner is shadow and the bottom-right corner is highlight. -/
theorem cell_baseGrid (bg h s : Color) {a b : Nat} (ha : a < 9) (hb : b < 9) :
    cell (baseGrid bg (some h) (some s)) a b
      = if (b = 0 ∧ a ≤ 7) ∨ (a = 8 ∧ b ≤ 7) then s
        else if (a = 0 ∧ 1 ≤ b) ∨ (b = 8 ∧ 1 ≤ a) then h
        else bg := by
  have hrepl : grid9 (List.replicate 9 (List.replicate 9 bg)) := grid9_replicate bg
  have hhl : grid9 (hlPass (List.replicate 9 (List.replicate 9 bg)) h) :=
    grid9_hlPass hrepl h
  unfold baseGrid
  simp only [applyOpt]
  unfold shPass
  rw [cell_sh_fold s (List.range 8) (fun x hx => by
      have := List.mem_range.mp hx
      omega) _ hhl ha hb]
  unfold hlPass
  rw [cell_hl_fold h (List.range' 1 8) (fun x hx => by
      have := List.mem_range'_1.mp hx
      omega) _ hrepl ha hb]
  rw [cell_replicate bg ha hb]
  have hmr : ∀ x : Nat, x ∈ List.range 8 ↔ x < 8 := fun x => List.mem_range
  have hmr' : ∀ x : Nat, x ∈ List.range' 1 8 ↔ 1 ≤ x ∧ x < 9 := fun x =>
    List.mem_range'_1
  by_cases hsh : (b = 0 ∧ a ≤ 7) ∨ (a = 8 ∧ b ≤ 7)
  · rw [if_pos ?_, if_pos hsh]
    rcases hsh with ⟨h1, h2⟩ | ⟨h1, h2⟩
    · exact Or.inl ⟨(hmr a).mpr (by omega), h1⟩
    · exact Or.inr ⟨h1, (hmr b).mpr (by omega)⟩
  · rw [if_neg ?_, if_neg hsh]
    · by_cases hhl2 : (a = 0 ∧ 1 ≤ b) ∨ (b = 8 ∧ 1 ≤ a)
      · rw [if_pos ?_, if_pos hhl2]
        rcases hhl2 with ⟨h1, h2⟩ | ⟨h1, h2⟩
        · exact Or.inl ⟨h1, (hmr' b).mpr (by omega)⟩
        · exact Or.inr ⟨h1, (hmr' a).mpr (by omega)⟩
      · rw [if_neg ?_, if_neg hhl2]
        intro hcon
        rcases hcon with ⟨h1, h2⟩ | ⟨h1, h2⟩
        · exact hhl2 (Or.inl ⟨h1, ((hmr' b).mp h2).1⟩)
        · exact hhl2 (Or.inr ⟨h1, ((hmr' a).mp h2).1⟩)
    · intro hcon
      rcases hcon with ⟨h1, h2⟩ | ⟨h1, h2⟩
      · exact hsh (Or.inl ⟨h2, by have := (hmr a).mp h1; omega⟩)
      · exact hsh (Or.inr ⟨h1, by have := (hmr b).mp h2; omega⟩)

/-- Inner character loop of the pattern pass (lines 103-105): a cell holds
`fgc` exactly when it sits in grid row `offN + irow` at a column `offN + j`
with `(j, X)` a mark of the processed character list; every other cell keeps
its previous value. -/
theorem cell_inner_fold (fgc : Color) (off : Int) (offN irow : Nat)
    (hoff : off = (offN : Int)) (hirow : offN + irow < 9) :
    ∀ (L : List (Nat × Char)), (∀ q ∈ L, offN + q.1 < 9) →
    ∀ (g1 g2 : List (List Color)), grid9 g1 →
      L.foldlM (fun g jCh => if jCh.2 = 'X'
          then pySet2 g (off + (irow : Int)) (off + (jCh.1 : Int)) fgc
          else pure g) g1 = some g2 →
      ∀ {a b : Nat}, a < 9 → b < 9 →
        cell g2 a b
          = if a = offN + irow ∧ ∃ q ∈ L, b = offN + q.1 ∧ q.2 = 'X'
            then fgc else cell g1 a b
  | [], _, g1, g2, hg1, h, a, b, ha, hb => by
    simp only [List.foldlM] at h
    injection h with h
    rw [if_neg (by simp), h]
  | q :: L, hL, g1, g2, hg1, h, a, b, ha, hb => by
    simp only [List.foldlM] at h
    by_cases hX : q.2 = 'X'
    · rw [if_pos hX] at h
      have hq1 : offN + q.1 < 9 := hL q (List.mem_cons_self q L)
      have hc1 : off + (irow : Int) = ((offN + irow : Nat) : Int) := by
        rw [hoff]; push_cast; ring
      have hc2 : off + (q.1 : Int) = ((offN + q.1 : Nat) : Int) := by
        rw [hoff]; push_cast; ring
      have hstep : pySet2 g1 (off + (irow : Int)) (off + (q.1 : Int)) fgc
          = some (set2 g1 (offN + irow) (offN + q.1) fgc) := by
        rw [hc1, hc2]
        exact pySet2_coe_nat fgc (by rw [grid9_length hg1]; omega)
          (by rw [grid9_getD hg1 hirow]; omega)
      rw [hstep] at h
      have hg1' : grid9 (set2 g1 (offN + irow) (offN + q.1) fgc) :=
        grid9_set2 hg1 _ _ fgc
      have hrec := cell_inner_fold fgc off offN irow hoff hirow L
        (fun r hr => hL r (List.mem_cons_of_mem q hr)) _ g2 hg1' h ha hb
      rw [hrec]
      by_cases hcond : a = offN + irow ∧ ∃ r ∈ L, b = offN + r.1 ∧ r.2 = 'X'
      · rw [if_pos hcond, if_pos ?_]
        exact ⟨hcond.1, hcond.2.elim
          (fun r hr => ⟨r, List.mem_cons_of_mem q hr.1, hr.2⟩)⟩
      · rw [if_neg hcond]
        by_cases hcond2 : a = offN + irow ∧ ∃ r ∈ q :: L, b = offN + r.1 ∧ r.2 = 'X'
        · rw [if_pos hcond2]
          obtain ⟨ha2, r, hr, hb2, hrX⟩ := hcond2
          rcases List.mem_cons.mp hr with hrq | hrL
          · subst hrq
            subst ha2
            subst hb2
            exact cell_set2_self (by rw [grid9_length hg1]; omega)
              (by rw [grid9_getD hg1 hirow]; omega) fgc
          · exact absurd ⟨ha2, r, hrL, hb2, hrX⟩ hcond
        · rw [if_neg hcond2]
          refine cell_set2_ne ?_
          by_cases haeq : a = offN + irow
          · exact Or.inr (fun hj =>
              hcond2 ⟨haeq, q, List.mem_cons_self q L, hj.symm, hX⟩)
          · exact Or.inl (fun hi => haeq hi.symm)
    · rw [if_neg hX] at h
      have hrec := cell_inner_fold fgc off offN irow hoff hirow L
        (fun r hr => hL r (List.mem_cons_of_mem q hr)) g1 g2 hg1 h ha hb
      rw [hrec]
      by_cases hcond : a = offN + irow ∧ ∃ r ∈ L, b = offN + r.1 ∧ r.2 = 'X'
      · rw [if_pos hcond, if_pos ⟨hcond.1, hcond.2.elim
          (fun r hr => ⟨r, List.mem_cons_of_mem q hr.1, hr.2⟩)⟩]
      · rw [if_neg hcond, if_neg ?_]
        rintro ⟨ha2, r, hr, hb2, hrX⟩
        rcases List.mem_cons.mp hr with hrq | hrL
        · exact hX (hrq ▸ hrX)
        · exact hcond ⟨ha2, r, hrL, hb2, hrX⟩

/-- Outer row loop of the pattern pass (lines 102-105): a cell is the
foreground color exactly when some mark of the processed enumerated rows
targets it; every other cell keeps its previous value. -/
theorem cell_outer_fold (fgc : Color) (off : Int) (offN : Nat)
    (hoff : off = (offN : Int)) :
    ∀ (P : List (Nat × String)),
      (∀ p ∈ P, offN + p.1 < 9 ∧ ∀ q ∈ p.2.toList.enum, offN + q.1 < 9) →
    ∀ (g1 g2 : List (List Color)), grid9 g1 →
      P.foldlM (fun g iRow => iRow.2.toList.enum.foldlM
          (fun g jCh => if jCh.2 = 'X'
            then pySet2 g (off + (iRow.1 : Int)) (off + (jCh.1 : Int)) fgc
            else pure g) g) g1 = some g2 →
      ∀ {a b : Nat}, a < 9 → b < 9 →
        cell g2 a b
          = if ∃ p ∈ P, a = offN + p.1 ∧ ∃ q ∈ p.2.toList.enum,
                b = offN + q.1 ∧ q.2 = 'X'
            then fgc else cell g1 a b
  | [], _, g1, g2, hg1, h, a, b, ha, hb => by
    simp only [List.foldlM] at h
    injection h with h
    rw [if_neg (by simp), h]
  | p :: P, hP, g1, g2, hg1, h, a, b, ha, hb => by
    simp only [List.foldlM] at h
    cases hmid : p.2.toList.enum.foldlM
        (fun g jCh => if jCh.2 = 'X'
          then pySet2 g (off + (p.1 : Int)) (off + (jCh.1 : Int)) fgc
          else pure g) g1 with
    | none => rw [hmid] at h; exact absurd h (by simp)
    | some gmid =>
      rw [hmid] at h
      have hgmid : grid9 gmid := by
        refine foldlM_option_preserve grid9 _ ?_ _ g1 gmid hg1 hmid
        intro g3 r g4 hg3 hstep
        by_cases hX : r.2 = 'X'
        · rw [if_pos hX] at hstep
          unfold grid9
          rw [map_length_pySet2 hstep]
          exact hg3
        · rw [if_neg hX] at hstep
          injection hstep with h4
          exact h4 ▸ hg3
      have hinner := cell_inner_fold fgc off offN p.1 hoff
        (hP p (List.mem_cons_self p P)).1 p.2.toList.enum
        (hP p (List.mem_cons_self p P)).2 g1 gmid hg1 hmid ha hb
      have hrest := cell_outer_fold fgc off offN hoff P
        (fun r hr => hP r (List.mem_cons_of_mem p hr)) gmid g2 hgmid h ha hb
      rw [hrest, hinner]
      by_cases hcP : ∃ r ∈ P, a = offN + r.1 ∧
          ∃ q ∈ r.2.toList.enum, b = offN + q.1 ∧ q.2 = 'X'
      · rw [if_pos hcP, if_pos ?_]
        obtain ⟨r, hr, hr2⟩ := hcP
        exact ⟨r, List.mem_cons_of_mem p hr, hr2⟩
      · rw [if_neg hcP]
        by_cases hcp : a = offN + p.1 ∧
            ∃ q ∈ p.2.toList.enum, b = offN + q.1 ∧ q.2 = 'X'
        · rw [if_pos hcp, if_pos ⟨p, List.mem_cons_self p P, hcp⟩]
        · rw [if_neg hcp, if_neg ?_]
          rintro ⟨r, hr, hr2⟩
          rcases List.mem_cons.mp hr with hrp | hrP
          · exact hcp (hrp ▸ hr2)
          · exact hcP ⟨r, hrP, hr2⟩

/-- Pointwise content of the pattern pass (lines 101-105): a cell becomes the
foreground color exactly when some X of the pattern targets it at the
centering offset; every other cell keeps its border or background value. -/
theorem cell_patPass {g g' : List (List Color)} (hg : grid9 g) (fgc : Color)
    {pattern : List String} (hplen : pattern.length ≤ 9)
    (hrows : ∀ p ∈ pattern.enum, (9 - pattern.length) / 2 + p.2.length ≤ 9)
    (hres : patPass g fgc pattern = some g') {a b : Nat} (ha : a < 9) (hb : b < 9) :
    cell g' a b
      = if ∃ p ∈ pattern.enum, a = (9 - pattern.length) / 2 + p.1 ∧
            ∃ q ∈ p.2.toList.enum, b = (9 - pattern.length) / 2 + q.1 ∧ q.2 = 'X'
        then fgc else cell g a b := by
  unfold patPass at hres
  refine cell_outer_fold fgc (Int.fdiv (9 - (pattern.length : Int)) 2)
    ((9 - pattern.length) / 2) (fdiv_off_eq hplen) pattern.enum ?_ g g' hg hres ha hb
  intro p hp
  obtain ⟨i, row⟩ := p
  obtain ⟨hi1, _⟩ := List.mem_enum hp
  have hrow := hrows (i, row) hp
  constructor
  · simp only at hrow hi1 ⊢
    omega
  · intro q hq
    obtain ⟨j, ch⟩ := q
    obtain ⟨hj1, _⟩ := List.mem_enum hq
    simp only at hrow hj1 ⊢
    have hlr : row.toList.length = row.length := rfl
    omega

theorem claim_C10_witness :
    Color.distance_from sqdist (Color.mk 1 2 3 7) (Color.mk 4 5 6 8)
      = Color.distance_from sqdist (Color.mk 1 2 3 200) (Color.mk 4 5 6 0) ∧
    (ColorMap.mk palette_colors
        (palette_colors.map (fun c => (c, default_tile)))
        default_tile).get_closest_color sqdist (Color.mk 10 20 30 40)
      = (ColorMap.mk palette_colors
          (palette_colors.map (fun c => (c, default_tile)))
          default_tile).get_closest_color sqdist (Color.mk 10 20 30 99) := by
  have hkeys : (ColorMap.mk palette_colors
      (palette_colors.map (fun c => (c, default_tile)))
      default_tile).color_map.map Prod.fst = palette_colors := by
    rw [List.map_map,
      show (Prod.fst ∘ fun c : Color => (c, default_tile)) = id from rfl,
      List.map_id]
  exact ⟨claim_C10.1 sqdist (Color.mk 1 2 3 7) (Color.mk 1 2 3 200)
      (Color.mk 4 5 6 8) (Color.mk 4 5 6 0) rfl rfl rfl rfl rfl rfl,
    claim_C10.2 sqdist sqdist_nonneg sqdist_eq_zero_iff _ hkeys
      (Color.mk 10 20 30 40) (Color.mk 10 20 30 99)
      (by decide) (by decide) rfl rfl rfl⟩

theorem forall2_mem_right {α β : Type} {Q : α → β → Prop} :
    ∀ {L : List α} {R : List β}, List.Forall₂ Q L R →
      ∀ {p : β}, p ∈ R → ∃ v ∈ L, Q v p := by
  intro L R h
  induction h with
  | nil => intro p hp; exact absurd hp (List.not_mem_nil p)
  | cons h1 _ ih =>
    intro p hp
    rcases List.mem_cons.mp hp with rfl | hp2
    · exact ⟨_, List.mem_cons_self _ _, h1⟩
    · obtain ⟨v, hv, hq⟩ := ih hp2
      exact ⟨v, List.mem_cons_of_mem _ hv, hq⟩

theorem charsLe_total : ∀ (x y : List Char),
    charsLe x y = true ∨ charsLe y x = true
  | [], _ => Or.inl rfl
  | _ :: _, [] => Or.inr rfl
  | c :: cs, d :: ds => by
    unfold charsLe
    rcases Nat.lt_trichotomy c.toNat d.toNat with h | h | h
    · left; rw [if_pos h]
    · have h1 : ¬ c.toNat < d.toNat := by omega
      have h2 : ¬ d.toNat < c.toNat := by omega
      simp only [if_neg h1, if_neg h2]
      exact charsLe_total cs ds
    · right; rw [if_pos h]

theorem charsLe_trans : ∀ (x y z : List Char),
    charsLe x y = true → charsLe y z = true → charsLe x z = true
  | [], _, _, _, _ => rfl
  | a :: x, [], _, h1, _ => absurd h1 (by simp [charsLe])
  | _ :: _, _ :: _, [], _, h2 => absurd h2 (by simp [charsLe])
  | a :: x, b :: y, c :: z, h1, h2 => by
    unfold charsLe at h1 h2 ⊢
    have hab : a.toNat < b.toNat ∨ (a.toNat = b.toNat ∧ charsLe x y = true) := by
      by_cases h : a.toNat < b.toNat
      · exact Or.inl h
      · rw [if_neg h] at h1
        by_cases h3 : b.toNat < a.toNat
        · rw [if_pos h3] at h1; exact absurd h1 (by simp)
        · rw [if_neg h3] at h1; exact Or.inr ⟨by omega, h1⟩
    have hbc : b.toNat < c.toNat ∨ (b.toNat = c.toNat ∧ charsLe y z = true) := by
      by_cases h : b.toNat < c.toNat
      · exact Or.inl h
      · rw [if_neg h] at h2
        by_cases h3 : c.toNat < b.toNat
        · rw [if_pos h3] at h2; exact absurd h2 (by simp)
        · rw [if_neg h3] at h2; exact Or.inr ⟨by omega, h2⟩
    rcases hab with h | ⟨he, hxy⟩ <;> rcases hbc with h3 | ⟨he3, hyz⟩
    · rw [if_pos (by omega : a.toNat < c.toNat)]
    · rw [if_pos (by omega : a.toNat < c.toNat)]
    · rw [if_pos (by omega : a.toNat < c.toNat)]
    · rw [if_neg (by omega : ¬ a.toNat < c.toNat),
        if_neg (by omega : ¬ c.toNat < a.toNat)]
      exact charsLe_trans x y z hxy hyz

instance pairGeTotal : IsTotal (Nat × String) pairGe :=
  ⟨fun a b => by
    unfold pairGe
    rcases Nat.lt_trichotomy a.1 b.1 with h | h | h
    · exact Or.inr (Or.inl h)
    · rcases charsLe_total b.2.toList a.2.toList with hc | hc
      · exact Or.inl (Or.inr ⟨h, hc⟩)
      · exact Or.inr (Or.inr ⟨h.symm, hc⟩)
    · exact Or.inl (Or.inl h)⟩

instance pairGeTrans : IsTrans (Nat × String) pairGe :=
  ⟨fun a b c hab hbc => by
    unfold pairGe at hab hbc ⊢
    rcases hab with h | ⟨he, hc1⟩ <;> rcases hbc with h3 | ⟨he3, hc2⟩
    · exact Or.inl (by omega)
    · exact Or.inl (by omega)
    · exact Or.inl (by omega)
    · exact Or.inr ⟨by omega, charsLe_trans c.2.toList b.2.toList a.2.toList hc2 hc1⟩⟩

/-- Totality of nearest-color resolution on a nonempty palette, together
with the fact that the result is the reserved transparent value or a
palette key. -/
theorem gcc_good (delta : RGB → RGB → ℚ) (cm : ColorMap)
    (hne : cm.color_map.map Prod.fst ≠ []) (c0 : Color) :
    ∃ c, cm.get_closest_color delta c0 = some c ∧
      (c = Color.mk 0 0 0 0 ∨ c ∈ cm.color_map.map Prod.fst) := by
  by_cases h0 : c0.a = 0
  · exact ⟨_, gcc_alpha0 delta cm h0, Or.inl rfl⟩
  · by_cases hm : c0 ∈ cm.color_map.map Prod.fst
    · exact ⟨c0, gcc_mem delta cm h0 hm, Or.inr hm⟩
    · obtain ⟨r, hr⟩ := pymin_by_isSome
        (fun k => Color.distance_from delta k c0) hne
      exact ⟨r, (gcc_notmem delta cm h0 hm).trans hr, Or.inr (pymin_by_mem hr)⟩

/-- `alpha_line_to_colors` with `fix=True` succeeds on any line of `4*w`
bytes, yields exactly `w` colors, and every output color is transparent or
a palette key. -/
theorem alpha_line_to_colors_some (delta : RGB → RGB → ℚ) (cm : ColorMap)
    (hne : cm.color_map.map Prod.fst ≠ []) :
    ∀ (w : Nat) (line : List Nat), line.length = 4 * w →
      ∃ out, alpha_line_to_colors delta cm true line = some out ∧
        out.length = w ∧
        ∀ c ∈ out, c = Color.mk 0 0 0 0 ∨ c ∈ cm.color_map.map Prod.fst
  | 0, line, hlen => by
    have hnil : line = [] := List.eq_nil_of_length_eq_zero (by omega)
    subst hnil
    exact ⟨[], rfl, rfl, by simp⟩
  | w + 1, line, hlen => by
    cases line with
    | nil => rw [List.length_nil] at hlen; omega
    | cons r l1 => cases l1 with
      | nil => simp only [List.length_cons, List.length_nil] at hlen; omega
      | cons g l2 => cases l2 with
        | nil => simp only [List.length_cons, List.length_nil] at hlen; omega
        | cons b l3 => cases l3 with
          | nil => simp only [List.length_cons, List.length_nil] at hlen; omega
          | cons a rest =>
            have hrest : rest.length = 4 * w := by
              simp only [List.length_cons] at hlen; omega
            obtain ⟨c, hc, hcg⟩ := gcc_good delta cm hne (Color.mk r g b a)
            obtain ⟨out, hout, hol, hog⟩ :=
              alpha_line_to_colors_some delta cm hne w rest hrest
            refine ⟨c :: out, ?_, by rw [List.length_cons, hol], ?_⟩
            · show (cm.get_closest_color delta (Color.mk r g b a)).bind (fun c =>
                  (alpha_line_to_colors delta cm true rest).bind (fun others =>
                    some (c :: others))) = some (c :: out)
              rw [hc, Option.some_bind, hout, Option.some_bind]
            · intro x hx
              rcases List.mem_cons.mp hx with rfl | hx2
              · exact hcg
              · exact hog x hx2

/-- Every snapped color gets a label: the transparent entry is named, and
every exact palette member maps to a tile carrying a declared name. -/
theorem catalog_label_some {cm : ColorMap}
    (hkeys : cm.color_map.map Prod.fst = palette_colors)
    (htr : cm.transparent = transparent_tile)
    (hF : List.Forall₂ (fun v (p : Color × Tile) =>
        p.1 = colorOfHtml v.1 ∧ p.2.name = some v.2.2.1 ∧ p.2.pay = v.2.2.2)
      color_values cm.color_map)
    {c : Color} (hc : c = Color.mk 0 0 0 0 ∨ c ∈ cm.color_map.map Prod.fst) :
    ∃ lab, catalogLabel cm c = some lab := by
  rcases hc with rfl | hm
  · refine ⟨(if transparent_tile.pay then payMark else freeMark)
      ++ transparentName, ?_⟩
    unfold catalogLabel
    rw [getitem_alpha0 cm rfl, htr]
    show tileLabel transparent_tile = _
    unfold tileLabel
    rw [transparent_tile_name]
    rfl
  · have ha : ¬ c.a = 0 := by
      have := palette_colors_alpha c (hkeys ▸ hm)
      omega
    obtain ⟨t, hok, hmem⟩ := getitem_of_mem cm ha hm
    obtain ⟨v, hv, hQ⟩ := forall2_mem_right hF hmem
    refine ⟨(if t.pay then payMark else freeMark) ++ v.2.2.1, ?_⟩
    unfold catalogLabel
    rw [hok]
    show tileLabel t = _
    unfold tileLabel
    rw [hQ.2.1]
    rfl

theorem bump_keys (counts : List (String × Nat)) (n : String) :
    (bump counts n).map Prod.fst
      = if counts.any (fun p => p.1 = n) then counts.map Prod.fst
        else counts.map Prod.fst ++ [n] := by
  unfold bump
  by_cases hany : counts.any (fun p => p.1 = n)
  · rw [if_pos hany, if_pos hany, List.map_map]
    refine List.map_congr_left ?_
    intro p _
    show (if p.1 = n then (p.1, p.2 + 1) else p).1 = p.1
    by_cases hpn : p.1 = n
    · rw [if_pos hpn]
    · rw [if_neg hpn]
  · rw [if_neg hany, if_neg hany, List.map_append]
    rfl

theorem bump_keys_nodup {counts : List (String × Nat)}
    (h : (counts.map Prod.fst).Nodup) (n : String) :
    ((bump counts n).map Prod.fst).Nodup := by
  rw [bump_keys]
  by_cases hany : counts.any (fun p => p.1 = n)
  · rw [if_pos hany]; exact h
  · rw [if_neg hany]
    rw [List.nodup_append]
    refine ⟨h, List.nodup_singleton n, ?_⟩
    intro x hx hx2
    rw [List.mem_singleton] at hx2
    subst hx2
    obtain ⟨p, hp, hpe⟩ := List.mem_map.mp hx
    rw [List.any_eq_true] at hany
    exact hany ⟨p, hp, decide_eq_true hpe⟩

theorem bump_cons_ne {p : String × Nat} {rest : List (String × Nat)} {n : String}
    (h : ¬ p.1 = n) : bump (p :: rest) n = p :: bump rest n := by
  unfold bump
  simp only [List.any_cons, decide_eq_false h, Bool.false_or]
  by_cases hany : rest.any (fun q => q.1 = n)
  · rw [if_pos hany, if_pos hany]
    simp only [List.map_cons, if_neg h]
  · rw [if_neg hany, if_neg hany, List.cons_append]

/-- One `counts[name] = counts.get(name, 0) + 1` step adds exactly one to
the total count, provided the tally keys are distinct (which the dict
structure of the source guarantees). -/
theorem bump_sum : ∀ {counts : List (String × Nat)},
    (counts.map Prod.fst).Nodup → ∀ (n : String),
    ((bump counts n).map Prod.snd).sum = (counts.map Prod.snd).sum + 1
  | [], _, n => rfl
  | p :: rest, h, n => by
    by_cases hpn : p.1 = n
    · have hany : (p :: rest).any (fun q => q.1 = n) = true := by
        simp only [List.any_cons, decide_eq_true hpn, Bool.true_or]
      unfold bump
      rw [if_pos hany]
      have hnr : ∀ q ∈ rest, ¬ q.1 = n := by
        intro q hq hqn
        rw [List.map_cons] at h
        have hnin := (List.nodup_cons.mp h).1
        apply hnin
        rw [hpn, ← hqn]
        exact List.mem_map_of_mem Prod.fst hq
      have hrest : rest.map (fun q => if q.1 = n then (q.1, q.2 + 1) else q)
          = rest := by
        have h1 : rest.map (fun q => if q.1 = n then (q.1, q.2 + 1) else q)
            = rest.map id :=
          List.map_congr_left (fun q hq => by rw [if_neg (hnr q hq)]; rfl)
        rw [h1, List.map_id]
      simp only [List.map_cons, if_pos hpn, hrest, List.sum_cons]
      omega
    · rw [bump_cons_ne hpn]
      have htail : (rest.map Prod.fst).Nodup := by
        rw [List.map_cons] at h
        exact (List.nodup_cons.mp h).2
      simp only [List.map_cons, List.sum_cons, bump_sum htail n]
      omega

/-- The tally loop of lines 584-585: total count equals the number of
processed labels, and the tally keys stay distinct. -/
theorem foldl_bump_sum : ∀ (labels : List String) (counts : List (String × Nat)),
    (counts.map Prod.fst).Nodup →
    (((labels.foldl bump counts).map Prod.snd).sum
        = (counts.map Prod.snd).sum + labels.length) ∧
    ((labels.foldl bump counts).map Prod.fst).Nodup
  | [], _, h => ⟨by simp, h⟩
  | n :: labels, counts, h => by
    simp only [List.foldl_cons]
    obtain ⟨h1, h2⟩ := foldl_bump_sum labels (bump counts n) (bump_keys_nodup h n)
    refine ⟨?_, h2⟩
    rw [h1, bump_sum h n, List.length_cons]
    omega

theorem map_length_sum_const {α : Type} {w : Nat} :
    ∀ {l : List (List α)}, (∀ x ∈ l, x.length = w) →
      (l.map List.length).sum = l.length * w
  | [], _ => by simp
  | x :: xs, h => by
    rw [List.map_cons, List.sum_cons,
      map_length_sum_const (fun y hy => h y (List.mem_cons_of_mem x hy)),
      h x (List.mem_cons_self x xs), List.length_cons]
    ring

/-- Success path of the catalog pipeline, given both decode stages. -/
theorem colorCatalog_data_eq (delta : RGB → RGB → ℚ) (cm : ColorMap)
    (pixels : List (List Nat)) (cps : List (List Color)) (labels : List String)
    (h1 : pixels.mapM (alpha_line_to_colors delta cm true) = some cps)
    (h2 : cps.flatten.mapM (catalogLabel cm) = some labels) :
    ColorCatalog_data delta cm pixels
      = some (sortPairsDesc ((labels.foldl bump []).map (fun p => (p.2, p.1)))) := by
  show (pixels.mapM (alpha_line_to_colors delta cm true)).bind (fun color_pixels =>
      (color_pixels.flatten.mapM (catalogLabel cm)).bind (fun labs =>
        some (sortPairsDesc ((labs.foldl bump []).map (fun p => (p.2, p.1))))))
    = some (sortPairsDesc ((labels.foldl bump []).map (fun p => (p.2, p.1))))
  rw [h1, Option.some_bind, h2, Option.some_bind]

theorem tile_mk_colors (g : List (List Color)) (name : Option String) (pay : Bool) :
    (Tile.mk g name pay).colors = g := rfl

/-- **C3**: in a tile built with both a highlight and a shadow color, the
highlight occupies exactly the top row at columns 1-8 and the right column at
rows 1-8, the shadow occupies exactly the left column at rows 0-7 and the
bottom row at columns 0-7 (so the top-left corner is owned by the shadow pass
and the bottom-right corner by the highlight pass), and every X mark of a
foreground pattern overwrites whatever border color sits at its centered
position `((9 - len) / 2 + i, (9 - len) / 2 + j)`. -/
theorem claim_C3 (bg hl sh fgc : Color) (name : Option String) (pay : Bool)
    (pattern : List String) (hplen : pattern.length ≤ 9)
    (hrows : ∀ p ∈ pattern.enum, (9 - pattern.length) / 2 + p.2.length ≤ 9) :
    (∃ t, Tile.init bg none [] (some hl) (some sh) name pay = some t ∧
      ∀ a b : Nat, a < 9 → b < 9 →
        cell t.colors a b
          = if (b = 0 ∧ a ≤ 7) ∨ (a = 8 ∧ b ≤ 7) then sh
            else if (a = 0 ∧ 1 ≤ b) ∨ (b = 8 ∧ 1 ≤ a) then hl
            else bg) ∧
    (∀ t, Tile.init bg (some fgc) pattern (some hl) (some sh) name pay = some t →
      ∀ i : Nat, ∀ row : String, ∀ j : Nat,
        (i, row) ∈ pattern.enum → (j, 'X') ∈ row.toList.enum →
          cell t.colors ((9 - pattern.length) / 2 + i)
            ((9 - pattern.length) / 2 + j) = fgc) := by
  constructor
  · refine ⟨⟨baseGrid bg (some hl) (some sh), name, pay⟩, ?_, ?_⟩
    · unfold Tile.init
      rw [tileGrid_none_eq]
      rfl
    · intro a b ha hb
      rw [tile_mk_colors (baseGrid bg (some hl) (some sh)) name pay]
      exact cell_baseGrid bg hl sh ha hb
  · intro t hres i row j hrow hch
    unfold Tile.init at hres
    rw [tileGrid_some_eq] at hres
    by_cases hp : pattern ≠ []
    · rw [if_pos hp] at hres
      cases hpat : patPass (baseGrid bg (some hl) (some sh)) fgc pattern with
      | none => rw [hpat] at hres; exact absurd hres (by simp)
      | some g' =>
        rw [hpat] at hres
        have ht : some t = some (Tile.mk g' name pay) := by
          rw [← hres]
          rfl
        injection ht with ht
        have hcol : t.colors = g' := by rw [ht]
        have hi1 : i < pattern.length ∧ row = pattern.getD i "" := by
          obtain ⟨h1, h2⟩ := List.mem_enum hrow
          refine ⟨h1, ?_⟩
          rw [h2]
          exact (List.getD_eq_get pattern "" h1).symm
        have hj1 : j < row.toList.length := (List.mem_enum hch).1
        have hrowlen := hrows (i, row) hrow
        simp only at hrowlen
        have hlr : row.toList.length = row.length := rfl
        have hia : (9 - pattern.length) / 2 + i < 9 := by
          obtain ⟨h1, _⟩ := hi1
          omega
        have hjb : (9 - pattern.length) / 2 + j < 9 := by omega
        have hcell := @cell_patPass (baseGrid bg (some hl) (some sh)) g'
          (grid9_baseGrid bg (some hl) (some sh)) fgc pattern hplen hrows hpat
          ((9 - pattern.length) / 2 + i) ((9 - pattern.length) / 2 + j) hia hjb
        rw [hcol, hcell, if_pos ?_]
        exact ⟨(i, row), hrow, rfl, (j, 'X'), hch, rfl, rfl⟩
    · exfalso
      rw [not_ne_iff] at hp
      rw [hp] at hrow
      exact absurd hrow (by simp)

theorem claim_C3_witness :
    transparentPattern.length ≤ 9 ∧
    (∀ p ∈ transparentPattern.enum,
      (9 - transparentPattern.length) / 2 + p.2.length ≤ 9) ∧
    ((∃ t, Tile.init black none [] (some white) (some (Color.mk 1 2 3 255))
        none false = some t ∧
      ∀ a b : Nat, a < 9 → b < 9 →
        cell t.colors a b
          = if (b = 0 ∧ a ≤ 7) ∨ (a = 8 ∧ b ≤ 7) then Color.mk 1 2 3 255
            else if (a = 0 ∧ 1 ≤ b) ∨ (b = 8 ∧ 1 ≤ a) then white
            else black) ∧
    (∀ t, Tile.init black (some white) transparentPattern (some white)
        (some (Color.mk 1 2 3 255)) none false = some t →
      ∀ i : Nat, ∀ row : String, ∀ j : Nat,
        (i, row) ∈ transparentPattern.enum → (j, 'X') ∈ row.toList.enum →
          cell t.colors ((9 - transparentPattern.length) / 2 + i)
            ((9 - transparentPattern.length) / 2 + j) = white)) :=
  ⟨by decide, by decide,
    claim_C3 black white (Color.mk 1 2 3 255) white none false
      transparentPattern (by decide) (by decide)⟩

/-- **C9**: for every input image of `h` rows of `w` RGBA pixels, the
catalog pipeline succeeds, its per-entry occurrence counts sum to exactly
`w * h`, and the report rows are pairwise in descending order of count. -/
theorem claim_C9 (delta : RGB → RGB → ℚ) (w h : Nat) (pixels : List (List Nat))
    (hpix : ∀ row ∈ pixels, row.length = 4 * w) (hh : pixels.length = h) :
    ∃ cm data, color_tile_map delta = some cm ∧
      ColorCatalog_data delta cm pixels = some data ∧
      (data.map Prod.fst).sum = w * h ∧
      List.Pairwise (fun a b : Nat × String => b.1 ≤ a.1) data := by
  obtain ⟨cm, hcm, hcolors, hkeys, htr, hF⟩ := color_tile_map_some delta
  have hkne : cm.color_map.map Prod.fst ≠ [] := by
    rw [hkeys]; exact palette_colors_ne_nil
  obtain ⟨cps, hcps, hFcp⟩ := mapM_some_of_forall
    (alpha_line_to_colors delta cm true)
    (fun _ out => out.length = w ∧
      ∀ c ∈ out, c = Color.mk 0 0 0 0 ∨ c ∈ cm.color_map.map Prod.fst)
    pixels
    (fun row hr => by
      obtain ⟨out, ho, hl, hg⟩ :=
        alpha_line_to_colors_some delta cm hkne w row (hpix row hr)
      exact ⟨out, ho, hl, hg⟩)
  have hrowlen : ∀ out ∈ cps, out.length = w := by
    intro out hout
    obtain ⟨row, _, hq⟩ := forall2_mem_right hFcp hout
    exact hq.1
  have hgood : ∀ c ∈ cps.flatten,
      c = Color.mk 0 0 0 0 ∨ c ∈ cm.color_map.map Prod.fst := by
    intro c hc
    obtain ⟨out, hout, hco⟩ := List.mem_flatten.mp hc
    obtain ⟨row, _, hq⟩ := forall2_mem_right hFcp hout
    exact hq.2 c hco
  obtain ⟨labels, hlabels, hFlab⟩ := mapM_some_of_forall (catalogLabel cm)
    (fun _ _ => True) cps.flatten
    (fun c hc => by
      obtain ⟨lab, hlab⟩ := catalog_label_some hkeys htr hF (hgood c hc)
      exact ⟨lab, hlab, trivial⟩)
  refine ⟨cm, sortPairsDesc ((labels.foldl bump []).map (fun p => (p.2, p.1))),
    hcm, colorCatalog_data_eq delta cm pixels cps labels hcps hlabels, ?_, ?_⟩
  · have hperm : (sortPairsDesc ((labels.foldl bump []).map (fun p => (p.2, p.1)))).Perm
        ((labels.foldl bump []).map (fun p => (p.2, p.1))) :=
      List.perm_insertionSort pairGe _
    rw [(hperm.map Prod.fst).sum_eq, List.map_map,
      show (Prod.fst ∘ fun p : String × Nat => (p.2, p.1)) = Prod.snd from rfl,
      (foldl_bump_sum labels [] (by simp)).1]
    have hlen1 : labels.length = cps.flatten.length := hFlab.length_eq.symm
    have hcl : cps.length = h := by
      rw [← hFcp.length_eq]; exact hh
    have hlen2 : cps.flatten.length = w * h := by
      rw [List.length_flatten, map_length_sum_const hrowlen, hcl]
      ring
    rw [hlen1, hlen2]
    simp
  · have hs : List.Sorted pairGe
        (sortPairsDesc ((labels.foldl bump []).map (fun p => (p.2, p.1)))) :=
      List.sorted_insertionSort pairGe _
    refine hs.imp ?_
    intro a b hab
    unfold pairGe at hab
    rcases hab with h1 | ⟨h1, _⟩ <;> omega

theorem claim_C9_witness :
    (∀ row ∈ ([[10, 20, 30, 40]] : List (List Nat)), row.length = 4 * 1) ∧
    ([[10, 20, 30, 40]] : List (List Nat)).length = 1 ∧
    (∃ cm data, color_tile_map sqdist = some cm ∧
      ColorCatalog_data sqdist cm [[10, 20, 30, 40]] = some data ∧
      (data.map Prod.fst).sum = 1 * 1 ∧
      List.Pairwise (fun a b : Nat × String => b.1 ≤ a.1) data) :=
  ⟨by decide, rfl, claim_C9 sqdist 1 1 [[10, 20, 30, 40]] (by decide) rfl⟩

end Wplace
